import Mathlib

/-!
Shallow embedding of the workout-logging client (`src/src/App.jsx`) and proofs
about it.

Modelling conventions:
* JavaScript numbers are modelled as `ℚ` (the code only performs `+ * /` and
  `Math.round`, all exercised on small decimal values); a possibly-`NaN` or
  `undefined` JavaScript number is modelled as `Option ℚ` with `none` for the
  non-numeric values.
* JavaScript strings handled character-wise (CSV fields, form inputs) are
  modelled as `List Char`; exercise names kept whole are `String`.
* Timestamps (`Date` values / ISO strings) are modelled as `ℕ` milliseconds
  since the epoch; ISO strings compare like their timestamps, so sorting by
  `new Date(a.date) - new Date(b.date)` is sorting by this number.
* `date.toLocaleDateString('ja-JP', {year:'numeric', month:'2-digit',
  day:'2-digit'})` is an external locale call producing a `"yyyy/mm/dd"` string
  that identifies the calendar day of the timestamp.  The day identification
  (one day = 86,400,000 ms) is modelled exactly; the year/month/day rendering
  uses a uniform 12-month, 31-day calendar, which preserves every property the
  program relies on: the string determines the calendar day uniquely, consists
  of digits and `'/'` only, and round-trips through the `new Date` parser model.
* Firestore writes always succeed in the model; a function's returned payload
  stands for the write it issues (`none` = no write issued).
-/

/-! ## Characters, digits, numeric print/parse -/

def msPerDay : ℕ := 86400000

/-- The whitespace characters relevant to `String.prototype.trim` /
`parseFloat` leading-whitespace skipping for the inputs this program
produces. -/
def isSpaceChar (c : Char) : Bool := c == ' ' || c == '\t' || c == '\n' || c == '\r'

def digitVal (c : Char) : ℕ := c.toNat - 48

/-- Value of a digit string, most significant first (the usual decimal
reading used by `parseInt` / `parseFloat`). -/
def digitsToNat (s : List Char) : ℕ := s.foldl (fun a c => 10 * a + digitVal c) 0

/-- Decimal digits of `n`, most significant first; fuel-structured so that it
reduces definitionally.  `natDigits` below instantiates the fuel. -/
def natDigitsGo : ℕ → ℕ → List Char
  | 0, _ => []
  | fuel + 1, n =>
    if n < 10 then [Nat.digitChar n]
    else natDigitsGo fuel (n / 10) ++ [Nat.digitChar (n % 10)]

def natDigits (n : ℕ) : List Char := natDigitsGo (n + 1) n

/-- Optional leading sign of a numeric literal: returns (negative?, rest). -/
def stripSign (s : List Char) : Bool × List Char :=
  match s with
  | [] => (false, [])
  | c :: t => if c = '-' then (true, t) else if c = '+' then (false, t) else (false, c :: t)

/-- Fraction digits after a leading `'.'`, if any. -/
def dotFrac (s : List Char) : List Char :=
  match s with
  | c :: t => if c = '.' then t.takeWhile Char.isDigit else []
  | [] => []

/-- Model of JavaScript `parseFloat`: skip leading whitespace, optional sign,
digit prefix, optional fraction after `'.'`; trailing garbage is ignored;
`none` models `NaN` (no digits at all).  Exponent notation is not modelled:
no input in the verified properties uses it. -/
def parseFloatQ (s : List Char) : Option ℚ :=
  let signed := stripSign (s.dropWhile isSpaceChar)
  let intDs := signed.2.takeWhile Char.isDigit
  let fracDs := dotFrac (signed.2.dropWhile Char.isDigit)
  if intDs.isEmpty && fracDs.isEmpty then none
  else
    let mag : ℚ := (digitsToNat intDs : ℚ) + (digitsToNat fracDs : ℚ) / 10 ^ fracDs.length
    some (if signed.1 then -mag else mag)

/-- Model of JavaScript `parseInt` (radix inferred as 10 for the decimal
strings this program feeds it): skip leading whitespace, optional sign,
decimal digit prefix; trailing garbage ignored; `none` models `NaN`. -/
def parseIntJS (s : List Char) : Option ℤ :=
  let signed := stripSign (s.dropWhile isSpaceChar)
  let ds := signed.2.takeWhile Char.isDigit
  if ds.isEmpty then none
  else some (if signed.1 then -(digitsToNat ds : ℤ) else (digitsToNat ds : ℤ))

/-- A rational that JavaScript would print as a plain (finite) decimal:
some power of ten clears the denominator.  The exponent `q.den` is always
large enough when any exponent works. -/
def IsDecimal (q : ℚ) : Prop := (q * 10 ^ q.den).den = 1

instance (q : ℚ) : Decidable (IsDecimal q) :=
  inferInstanceAs (Decidable ((q * 10 ^ q.den).den = 1))

/-- Least power of ten clearing the denominator of `q` (when one exists
below the search bound; `0` otherwise). -/
def decExp (q : ℚ) : ℕ :=
  (((List.range (q.den + 1)).find? fun k => (q * 10 ^ k).den == 1).getD 0)

/-- Digits of `r` left-padded with zeros to width `k` (fraction part of a
decimal rendering). -/
def padZeros (k r : ℕ) : List Char :=
  List.replicate (k - (natDigits r).length) '0' ++ natDigits r

/-- Decimal rendering of a nonnegative decimal rational, the way JavaScript
number-to-string produces it for the magnitudes this program handles
(integer part, then `'.'` and the fraction when one is present). -/
def printQPos (q : ℚ) : List Char :=
  if decExp q = 0 then natDigits (q * 10 ^ decExp q).num.toNat
  else
    natDigits ((q * 10 ^ decExp q).num.toNat / 10 ^ decExp q) ++
      '.' :: padZeros (decExp q) ((q * 10 ^ decExp q).num.toNat % 10 ^ decExp q)

/-- JavaScript number-to-string for the values this program writes into CSV
cells. -/
def printQ (q : ℚ) : List Char := if q < 0 then '-' :: printQPos (-q) else printQPos q

/-- JavaScript number-to-string for integer values (`reps`). -/
def printIntJS (i : ℤ) : List Char :=
  if i < 0 then '-' :: natDigits (-i).toNat else natDigits i.toNat

/-! ## Split / join / trim -/

/-- `Array.prototype.join(sep)` restricted to one-character separators (the
program joins with `","` and `"\n"`). -/
def joinSep (sep : Char) : List (List Char) → List Char
  | [] => []
  | [x] => x
  | x :: xs => x ++ sep :: joinSep sep xs

/-- `String.prototype.split(sep)` for a one-character separator: always
returns at least one (possibly empty) piece, one more piece per separator
occurrence. -/
def splitSep (sep : Char) : List Char → List (List Char)
  | [] => [[]]
  | x :: xs =>
    if x = sep then [] :: splitSep sep xs
    else
      match splitSep sep xs with
      | [] => [[x]]
      | p :: ps => (x :: p) :: ps

/-- `String.prototype.trim`. -/
def trimChars (s : List Char) : List Char :=
  ((s.dropWhile isSpaceChar).reverse.dropWhile isSpaceChar).reverse

/-! ## Dates -/

/-- Calendar-day number of a timestamp (which `"yyyy/mm/dd"` string
`formatDate` produces is a function of exactly this number). -/
def dayNumber (t : ℕ) : ℕ := t / msPerDay

/-- Two-digit zero padding used by the `'2-digit'` locale option. -/
def pad2 (n : ℕ) : List Char := if n < 10 then '0' :: natDigits n else natDigits n

/-- Year/month/day of a day number in the model calendar (uniform 12 months
of 31 days; see the header note). -/
def dayYear (d : ℕ) : ℕ := 1970 + d / 372
def dayMonth (d : ℕ) : ℕ := 1 + d % 372 / 31
def dayDom (d : ℕ) : ℕ := 1 + d % 31

/-- Model of the helper `formatDate` (`toLocaleDateString('ja-JP', …)`):
renders the calendar day of a timestamp as `"yyyy/mm/dd"`. -/
def formatDate (t : ℕ) : List Char :=
  joinSep '/' [natDigits (dayYear (dayNumber t)), pad2 (dayMonth (dayNumber t)),
    pad2 (dayDom (dayNumber t))]

/-- Validation and conversion of a split `"y/m/d"` date (helper of
`parseDateJS`). -/
def parseYMD (ys ms ds : List Char) : Option ℕ :=
  if (!ys.isEmpty && ys.all Char.isDigit) && (!ms.isEmpty && ms.all Char.isDigit)
      && (!ds.isEmpty && ds.all Char.isDigit) then
    let y := digitsToNat ys
    let m := digitsToNat ms
    let d := digitsToNat ds
    if 1970 ≤ y && (1 ≤ m && m ≤ 12) && (1 ≤ d && d ≤ 31) then
      some (((y - 1970) * 372 + (m - 1) * 31 + (d - 1)) * msPerDay)
    else none
  else none

/-- Model of `new Date(s).toISOString()` for the strings this program feeds
it: accepts the `"y/m/d"` shape the exporter emits (digit groups, month and
day in range), returns the timestamp; `none` models the `RangeError` that
`toISOString` raises on an invalid date. -/
def parseDateJS (s : List Char) : Option ℕ :=
  match splitSep '/' s with
  | [ys, ms, ds] => parseYMD ys ms ds
  | _ => none

/-! ## The 1RM estimator (`calculate1RM`, App.jsx lines 82–85) -/

/-- `Math.round`: round half toward positive infinity. -/
def jsRound (x : ℚ) : ℤ := ⌊x + 1 / 2⌋

/-- `calculate1RM` on numeric inputs.  The source guard `if (!w || !r) return 0`
is the JavaScript falsiness test, which on numbers fires for `0` (and for
`NaN`/`undefined`, handled by `calculate1RMJS` below). -/
def calculate1RM (w r : ℚ) : ℚ :=
  if w = 0 ∨ r = 0 then 0 else (jsRound (w * (1 + r / 30) * 10) : ℚ) / 10

/-- A JavaScript number argument is falsy when it is `0`, `NaN` or
`undefined` (`none`). -/
def jsFalsyNum : Option ℚ → Bool
  | none => true
  | some x => x == 0

/-- `calculate1RM` on JavaScript values: zero, absent and non-numeric inputs
all fall to the `0` sentinel through the falsiness guard. -/
def calculate1RMJS (w r : Option ℚ) : ℚ :=
  if jsFalsyNum w || jsFalsyNum r then 0 else calculate1RM (w.getD 0) (r.getD 0)

/-! ## Log records and the progress series (`chartData`, App.jsx lines 306–318) -/

/-- A fetched log document as the aggregation code sees it (numeric fields
numeric; the opaque `id` plays no role in the verified derivations). -/
structure LogRec where
  date : ℕ
  exercise : String
  weight : ℚ
  reps : ℤ
  oneRM : ℚ
  deriving DecidableEq, Repr

/-- The sort comparator `(a, b) => new Date(a.date) - new Date(b.date)`. -/
def dateLE (a b : LogRec) : Prop := a.date ≤ b.date

instance : DecidableRel dateLE := fun a b => inferInstanceAs (Decidable (a.date ≤ b.date))
instance : IsTotal LogRec dateLE := ⟨fun a b => Nat.le_total a.date b.date⟩
instance : IsTrans LogRec dateLE := ⟨fun _ _ _ h h' => Nat.le_trans h h'⟩

/-- One step of building `dailyMax`: a JavaScript object with non-index string
keys preserves key insertion order, an assignment to a fresh key appends it,
and an assignment to an existing key keeps its position; the code assigns
when the key is fresh or the new `oneRM` is strictly greater. -/
def dmInsert (m : List (ℕ × ℚ)) (d : ℕ) (v : ℚ) : List (ℕ × ℚ) :=
  match m.lookup d with
  | none => m ++ [(d, v)]
  | some v0 => if v0 < v then m.map (fun p => if p.1 = d then (d, v) else p) else m

/-- The `filtered.forEach` loop over `dailyMax`. -/
def dailyFold (m : List (ℕ × ℚ)) : List LogRec → List (ℕ × ℚ)
  | [] => m
  | r :: rs => dailyFold (dmInsert m (dayNumber r.date) r.oneRM) rs

/-- `dailyMax` (keys and kept `oneRM` values, in key insertion order =
`Object.values` order): filter to the selected exercise, sort ascending by
timestamp (JavaScript `sort` is stable; `List.insertionSort` is the stable
sort), fold.  The key is the calendar day — the full `"yyyy/mm/dd"` string in
the source, which determines the day uniquely. -/
def chartEntries (logs : List LogRec) (selectedExercise : String) : List (ℕ × ℚ) :=
  dailyFold [] ((logs.filter fun l => l.exercise == selectedExercise).insertionSort dateLE)

/-- The `date` label stored in each chart point: the formatted date with the
year dropped (`d.split('/').slice(1).join('/')`), i.e. the month/day pair. -/
def monthDayLabel (d : ℕ) : ℕ × ℕ := (dayMonth d, dayDom d)

/-- `chartData`: the `Object.values` of `dailyMax`, each point carrying the
month/day label and the kept `oneRM`. -/
def chartData (logs : List LogRec) (selectedExercise : String) : List ((ℕ × ℕ) × ℚ) :=
  (chartEntries logs selectedExercise).map fun p => (monthDayLabel p.1, p.2)

/-! ## CSV export (`handleExportCSV`, App.jsx lines 240–252) -/

def csvHeader : List Char := "日付,種目,重量(kg),回数,推定1RM(kg)".data

/-- One exported row:
`[formatDate(log.date), log.exercise, log.weight, log.reps, log.oneRM].join(",")`. -/
def exportRow (l : LogRec) : List Char :=
  joinSep ',' [formatDate l.date, l.exercise.data, printQ l.weight, printIntJS l.reps,
    printQ l.oneRM]

/-- `handleExportCSV`: `none` models the early return on an empty collection
(no file produced); otherwise the produced CSV text (the BOM byte prefix is a
byte-level artefact outside the character model). -/
def handleExportCSV (logs : List LogRec) : Option (List Char) :=
  if logs.isEmpty then none
  else some (joinSep '\n' (csvHeader :: logs.map exportRow))

/-! ## CSV import (`executeImport`, App.jsx lines 264–293) -/

/-- Outcome of the import loop body: `done` is the normal exit that reports
`{success, error}`; `thrown` models an exception escaping the row loop to the
surrounding `catch` (status set to `'error'`, no report produced).  Both carry
the records written so far. -/
inductive CsvOutcome where
  | done (success error : ℕ) (written : List LogRec)
  | thrown (written : List LogRec)
  deriving DecidableEq, Repr

/-- The records a finished or aborted import run has written. -/
def writtenRecords : CsvOutcome → List LogRec
  | .done _ _ w => w
  | .thrown w => w

/-- What one loop iteration does with one line. -/
inductive RowStep where
  | skip
  | ok (rec : LogRec)
  | bad
  | abort
  deriving DecidableEq, Repr

/-- One line of the import loop: trim, split on commas; fewer than 4 columns
→ `continue` (`skip`); otherwise destructure the first four columns, and when
both numbers parse, convert the date — `abort` models the exception
`new Date(d).toISOString()` raises on an invalid date, thrown before the
write — producing the record written with a recomputed `oneRM` (`ok`); a
number that fails to parse is counted as an error (`bad`). -/
def rowStep (line : List Char) : RowStep :=
  match splitSep ',' (trimChars line) with
  | d :: ex :: w :: r :: _ =>
    match parseFloatQ w, parseIntJS r with
    | some wv, some rv =>
      match parseDateJS d with
      | some t => .ok ⟨t, String.mk (trimChars ex), wv, rv, calculate1RM wv (rv : ℚ)⟩
      | none => .abort
    | _, _ => .bad
  | _ => .skip

/-- The `for (const line of lines.slice(1))` loop with its success/error
counters and the records written so far; an `abort` step escapes to the
`catch` with the rows already written left in place and the rest of the
lines unprocessed. -/
def importRows : List (List Char) → ℕ → ℕ → List LogRec → CsvOutcome
  | [], s, e, acc => .done s e acc
  | line :: rest, s, e, acc =>
    match rowStep line with
    | .skip => importRows rest s e acc
    | .ok rec => importRows rest (s + 1) e (acc ++ [rec])
    | .bad => importRows rest s (e + 1) acc
    | .abort => .thrown acc

/-- `executeImport`'s `reader.onload` body on the uploaded text (the guard on
a missing file or session precedes it in the source): split into lines, drop
the header line, run the row loop. -/
def executeImport (text : List Char) : CsvOutcome :=
  importRows ((splitSep '\n' text).drop 1) 0 0 []

/-! ## Saving a log (`handleSaveLog`, App.jsx lines 190–211) -/

/-- The payload `handleSaveLog` passes to `addDoc`; `weight`/`reps` are the
raw `parseFloat`/`parseInt` results (possibly `NaN` = `none`). -/
structure LogPayload where
  date : ℕ
  exercise : String
  weight : Option ℚ
  reps : Option ℤ
  oneRM : ℚ
  deriving DecidableEq, Repr

/-- `new Date(recordDate)` for the `"yyyy-mm-dd"` value of the date input,
combined with `setHours(now.getHours(), now.getMinutes())`. -/
def saveTimestamp (recordDate : List Char) (nowH nowM : ℕ) : ℕ :=
  (match splitSep '-' recordDate with
    | [ys, ms, ds] =>
      ((digitsToNat ys - 1970) * 372 + (digitsToNat ms - 1) * 31 + (digitsToNat ds - 1))
        * msPerDay
    | _ => 0) + nowH * 3600000 + nowM * 60000

/-- `handleSaveLog`: the guard `if (!weight || !reps || !user) return` tests
string falsiness — it fires exactly on empty strings (and a missing session).
`none` models the early return (no payload, no write); `some` is the payload
written by `addDoc` (the surrounding `try/catch` swallows a store failure, so
nothing propagates either way). -/
def handleSaveLog (weight reps : List Char) (user : Option String)
    (recordDate : List Char) (nowH nowM : ℕ) (selectedExercise : String) :
    Option LogPayload :=
  if weight.isEmpty || reps.isEmpty || user.isNone then none
  else
    some
      { date := saveTimestamp recordDate nowH nowM
        exercise := selectedExercise
        weight := parseFloatQ weight
        reps := parseIntJS reps
        oneRM := calculate1RMJS (parseFloatQ weight) ((parseIntJS reps).map fun i => (i : ℚ)) }

/-! ## Exercise registry (App.jsx lines 79, 175–181, 213–227) -/

def INITIAL_EXERCISES : List String := ["ベンチプレス", "スクワット", "デッドリフト", "ショルダープレス"]

/-- First-occurrence deduplication, as `Array.from(new Set(xs))` produces it
(`seen` accumulates the elements already emitted). -/
def jsSetDedup (seen : List String) : List String → List String
  | [] => []
  | x :: xs => if x ∈ seen then jsSetDedup seen xs else x :: jsSetDedup (x :: seen) xs

/-- The settings subscription's registry merge:
`Array.from(new Set([...INITIAL_EXERCISES, ...customExercises]))`. -/
def mergeRegistry (customExercises : List String) : List String :=
  jsSetDedup [] (INITIAL_EXERCISES ++ customExercises)

/-- The spec's description of the merge, for comparison: built-in entries
first in their original order, then the custom entries in append order that
are not already present, deduplicated by exact string match. -/
def specRegistryMerge (customExercises : List String) : List String :=
  INITIAL_EXERCISES ++ jsSetDedup INITIAL_EXERCISES customExercises

/-- `handleAddExercise`: rejected (no write) unless the name is nonempty,
absent from the current merged registry and a session exists; otherwise the
new custom list — current non-built-in entries plus the new name — is written
with `setDoc(..., { merge: true })` against the single `settings/config`
document.  The returned list is that written custom list (`none` = no write). -/
def handleAddExercise (newExerciseName : String) (exercises : List String)
    (user : Option String) : Option (List String) :=
  if newExerciseName ≠ "" ∧ newExerciseName ∉ exercises ∧ user.isSome then
    some ((exercises.filter fun e => e ∉ INITIAL_EXERCISES) ++ [newExerciseName])
  else none

/-! ## Verification helpers (proof vocabulary, not part of the source model) -/

/-- Merge of two optional maxima. -/
def mergeMax : Option ℚ → Option ℚ → Option ℚ
  | none, o => o
  | some v, none => some v
  | some v, some w => some (max v w)

/-- Maximum `oneRM` among the records of calendar day `d` in `l` (`none` when
the day has no record). -/
def dayMax (l : List LogRec) (d : ℕ) : Option ℚ :=
  match l with
  | [] => none
  | r :: rs =>
    if dayNumber r.date = d then
      match dayMax rs d with
      | none => some r.oneRM
      | some w => some (max r.oneRM w)
    else dayMax rs d

/-- First occurrences of the records' calendar days that are not in `seen`,
in record order. -/
def newDays (seen : List ℕ) : List LogRec → List ℕ
  | [] => []
  | r :: rs =>
    if dayNumber r.date ∈ seen then newDays seen rs
    else dayNumber r.date :: newDays (dayNumber r.date :: seen) rs

/-- The claim's acceptance test in its own words: the line, trimmed and split
on commas, has at least four columns, its weight column parses as a decimal
and its reps column parses as an integer. -/
def rowAccepted (line : List Char) : Bool :=
  match splitSep ',' (trimChars line) with
  | _ :: _ :: w :: r :: _ => (parseFloatQ w).isSome && (parseIntJS r).isSome
  | _ => false

/-- The claim's error test: at least four columns but the numbers do not both
parse. -/
def rowRejected (line : List Char) : Bool :=
  match splitSep ',' (trimChars line) with
  | _ :: _ :: w :: r :: _ => !((parseFloatQ w).isSome && (parseIntJS r).isSome)
  | _ => false

/-- Whether the date column of a (≥ 4 column) line converts without throwing. -/
def rowDateOk (line : List Char) : Bool :=
  match splitSep ',' (trimChars line) with
  | d :: _ :: _ :: _ :: _ => (parseDateJS d).isSome
  | _ => true

/-- The record an accepted import of an exported row reconstructs: the
calendar day's midnight timestamp, the trimmed exercise name, the same weight
and reps, and a recomputed `oneRM`. -/
def reimport (l : LogRec) : LogRec :=
  ⟨dayNumber l.date * msPerDay, String.mk (trimChars l.exercise.data), l.weight, l.reps,
    calculate1RM l.weight (l.reps : ℚ)⟩

/-- A well-formed stored record as the round-trip claim assumes it: positive
decimal weight, positive reps, an exercise name free of commas, newlines and
surrounding whitespace, and the data-model invariant on `oneRM`. -/
def ValidRecord (l : LogRec) : Prop :=
  0 < l.weight ∧ IsDecimal l.weight ∧ 0 < l.reps
    ∧ ',' ∉ l.exercise.data ∧ '\n' ∉ l.exercise.data
    ∧ trimChars l.exercise.data = l.exercise.data
    ∧ l.oneRM = calculate1RM l.weight (l.reps : ℚ)

/-! ## Digit lemmas -/

theorem digitChar_isDigit {d : ℕ} (h : d < 10) : (Nat.digitChar d).isDigit = true := by
  interval_cases d <;> decide

theorem digitVal_digitChar {d : ℕ} (h : d < 10) : digitVal (Nat.digitChar d) = d := by
  interval_cases d <;> decide

theorem digitChar_ne_slash {d : ℕ} (h : d < 10) : Nat.digitChar d ≠ '/' := by
  interval_cases d <;> decide

theorem natDigitsGo_digits {fuel n : ℕ} (h : n < fuel) :
    ∀ c ∈ natDigitsGo fuel n, c.isDigit = true := by
  induction fuel generalizing n with
  | zero => omega
  | succ fuel ih =>
    intro c hc
    rw [natDigitsGo] at hc
    by_cases h10 : n < 10
    · simp only [if_pos h10, List.mem_singleton] at hc
      exact hc ▸ digitChar_isDigit h10
    · simp only [if_neg h10, List.mem_append, List.mem_singleton] at hc
      rcases hc with hc | hc
      · exact ih (by omega) c hc
      · exact hc ▸ digitChar_isDigit (Nat.mod_lt _ (by omega))

theorem natDigitsGo_ne_nil {fuel n : ℕ} (h : n < fuel) : natDigitsGo fuel n ≠ [] := by
  cases fuel with
  | zero => omega
  | succ fuel =>
    rw [natDigitsGo]
    by_cases h10 : n < 10
    · simp [h10]
    · simp [h10]

theorem natDigitsGo_foldl {fuel : ℕ} :
    ∀ {n : ℕ}, n < fuel → ∀ a : ℕ,
      (natDigitsGo fuel n).foldl (fun a c => 10 * a + digitVal c) a =
        a * 10 ^ (natDigitsGo fuel n).length + n := by
  induction fuel with
  | zero => omega
  | succ fuel ih =>
    intro n h a
    rw [natDigitsGo]
    by_cases h10 : n < 10
    · simp only [if_pos h10, List.foldl_cons, List.foldl_nil, digitVal_digitChar h10,
        List.length_singleton, pow_one]
      ring
    · have hrec : n / 10 < fuel := by omega
      simp only [if_neg h10, List.foldl_append, List.foldl_cons, List.foldl_nil,
        List.length_append, List.length_singleton]
      rw [ih hrec a, digitVal_digitChar (Nat.mod_lt _ (by omega))]
      rw [pow_succ]
      have := Nat.div_add_mod n 10
      ring_nf
      omega

theorem digitsToNat_natDigits (n : ℕ) : digitsToNat (natDigits n) = n := by
  have := @natDigitsGo_foldl (n + 1) n (by omega) 0
  simpa [digitsToNat, natDigits] using this

theorem natDigits_digits {n : ℕ} : ∀ c ∈ natDigits n, c.isDigit = true :=
  natDigitsGo_digits (by omega)

theorem natDigits_ne_nil (n : ℕ) : natDigits n ≠ [] :=
  natDigitsGo_ne_nil (by omega)

theorem natDigitsGo_length_le {fuel : ℕ} :
    ∀ {n k : ℕ}, n < fuel → n < 10 ^ k → 1 ≤ k → (natDigitsGo fuel n).length ≤ k := by
  induction fuel with
  | zero => omega
  | succ fuel ih =>
    intro n k h hk h1
    rw [natDigitsGo]
    by_cases h10 : n < 10
    · rw [if_pos h10]
      simpa using h1
    · have hk2 : 2 ≤ k := by
        by_contra hlt
        have : k = 1 := by omega
        subst this
        simp at hk
        omega
      have hdiv : n / 10 < 10 ^ (k - 1) := by
        have : 10 ^ k = 10 ^ (k - 1) * 10 := by
          rw [← pow_succ]
          congr 1
          omega
        rw [this] at hk
        omega
      have := ih (n := n / 10) (k := k - 1) (by omega) hdiv (by omega)
      simp only [if_neg h10, List.length_append, List.length_singleton]
      omega

theorem natDigits_length_le {n k : ℕ} (hk : n < 10 ^ k) (h1 : 1 ≤ k) :
    (natDigits n).length ≤ k :=
  natDigitsGo_length_le (by omega) hk h1

/-! ## takeWhile / dropWhile / foldl helpers -/

theorem takeWhile_all {p : Char → Bool} {l : List Char} (h : ∀ c ∈ l, p c = true) :
    l.takeWhile p = l := by
  induction l with
  | nil => rfl
  | cons x xs ih =>
    have hx := h x (by simp)
    have ht := ih fun c hc => h c (by simp [hc])
    simp [List.takeWhile_cons, hx, ht]

theorem dropWhile_all {p : Char → Bool} {l : List Char} (h : ∀ c ∈ l, p c = true) :
    l.dropWhile p = [] := by
  induction l with
  | nil => rfl
  | cons x xs ih =>
    have hx := h x (by simp)
    have ht := ih fun c hc => h c (by simp [hc])
    simp [List.dropWhile_cons, hx, ht]

theorem takeWhile_append_stop {p : Char → Bool} {xs : List Char} {y : Char} {r : List Char}
    (hxs : ∀ c ∈ xs, p c = true) (hy : p y = false) :
    (xs ++ y :: r).takeWhile p = xs := by
  induction xs with
  | nil => simp [List.takeWhile_cons, hy]
  | cons x t ih =>
    have hx := hxs x (by simp)
    have ht := ih fun c hc => hxs c (by simp [hc])
    simp [List.takeWhile_cons, hx, ht]

theorem dropWhile_append_stop {p : Char → Bool} {xs : List Char} {y : Char} {r : List Char}
    (hxs : ∀ c ∈ xs, p c = true) (hy : p y = false) :
    (xs ++ y :: r).dropWhile p = y :: r := by
  induction xs with
  | nil => simp [List.dropWhile_cons, hy]
  | cons x t ih =>
    have hx := hxs x (by simp)
    have ht := ih fun c hc => hxs c (by simp [hc])
    simp [List.dropWhile_cons, hx, ht]

theorem digit_not_space {c : Char} (h : c.isDigit = true) : isSpaceChar c = false := by
  simp only [isSpaceChar, Bool.or_eq_false_iff, beq_eq_false_iff_ne, ne_eq]
  refine ⟨⟨⟨?_, ?_⟩, ?_⟩, ?_⟩ <;> rintro rfl <;> exact absurd h (by decide)

theorem digit_ne_dot {c : Char} (h : c.isDigit = true) : c ≠ '.' := by
  rintro rfl
  exact absurd h (by decide)

theorem digit_ne_comma {c : Char} (h : c.isDigit = true) : c ≠ ',' := by
  rintro rfl
  exact absurd h (by decide)

theorem digit_ne_newline {c : Char} (h : c.isDigit = true) : c ≠ '\n' := by
  rintro rfl
  exact absurd h (by decide)

theorem digit_ne_slash {c : Char} (h : c.isDigit = true) : c ≠ '/' := by
  rintro rfl
  exact absurd h (by decide)

theorem digit_ne_minus {c : Char} (h : c.isDigit = true) : c ≠ '-' := by
  rintro rfl
  exact absurd h (by decide)

theorem digit_ne_plus {c : Char} (h : c.isDigit = true) : c ≠ '+' := by
  rintro rfl
  exact absurd h (by decide)

theorem dropWhile_none {p : Char → Bool} {l : List Char} (h : ∀ c ∈ l, p c = false) :
    l.dropWhile p = l := by
  cases l with
  | nil => rfl
  | cons x xs => simp [List.dropWhile_cons, h x (by simp)]

theorem stripSign_digit {c : Char} {t : List Char} (h : c.isDigit = true) :
    stripSign (c :: t) = (false, c :: t) := by
  simp [stripSign, digit_ne_minus h, digit_ne_plus h]

/-! ## Padded digits and the numeric round trips -/

theorem digitsToNat_replicate_zero (j : ℕ) (ds : List Char) :
    digitsToNat (List.replicate j '0' ++ ds) = digitsToNat ds := by
  induction j with
  | zero => simp
  | succ j ih =>
    simpa [digitsToNat, List.replicate_succ, List.foldl_cons, digitVal] using ih

theorem padZeros_digits {k r : ℕ} : ∀ c ∈ padZeros k r, c.isDigit = true := by
  intro c hc
  rcases List.mem_append.mp hc with hc | hc
  · rw [List.eq_of_mem_replicate hc]
    decide
  · exact natDigits_digits c hc

theorem digitsToNat_padZeros (k r : ℕ) : digitsToNat (padZeros k r) = r := by
  rw [padZeros, digitsToNat_replicate_zero, digitsToNat_natDigits]

theorem padZeros_length {k r : ℕ} (h : r < 10 ^ k) (hk : 1 ≤ k) :
    (padZeros k r).length = k := by
  have := natDigits_length_le h hk
  simp only [padZeros, List.length_append, List.length_replicate]
  omega

theorem padZeros_ne_nil (k r : ℕ) : padZeros k r ≠ [] := by
  simp [padZeros, natDigits_ne_nil r]

theorem parseIntJS_natDigits (n : ℕ) : parseIntJS (natDigits n) = some (n : ℤ) := by
  have hd := natDigits_digits (n := n)
  have hne := natDigits_ne_nil n
  rw [parseIntJS]
  rw [dropWhile_none fun c hc => digit_not_space (hd c hc)]
  cases h : natDigits n with
  | nil => exact absurd h hne
  | cons c t =>
    have hdc : c.isDigit = true := hd c (by rw [h]; simp)
    rw [stripSign_digit hdc, ← h, takeWhile_all hd]
    simp [h, digitsToNat_natDigits n ▸ congrArg digitsToNat h.symm]

theorem decExp_spec {q : ℚ} (h : IsDecimal q) : (q * 10 ^ decExp q).den = 1 := by
  rw [decExp]
  cases hf : (List.range (q.den + 1)).find? fun k => (q * 10 ^ k).den == 1 with
  | none =>
    rw [List.find?_eq_none] at hf
    exact absurd (by simpa using h) (by simpa using hf q.den (List.mem_range.mpr (by omega)))
  | some k =>
    simpa using List.find?_some hf

theorem num_cast_of_den_one {x : ℚ} (h : x.den = 1) : (x.num : ℚ) = x :=
  (Rat.den_eq_one_iff x).mp h

theorem printQPos_spec {q : ℚ} (h0 : 0 ≤ q) (hd : IsDecimal q) :
    parseFloatQ (printQPos q) = some q := by
  have hden := decExp_spec hd
  set k := decExp q with hk
  set m := (q * 10 ^ k).num.toNat with hm
  have hnum : ((q * 10 ^ k).num : ℚ) = q * 10 ^ k := num_cast_of_den_one hden
  have hpos : (0 : ℚ) ≤ q * 10 ^ k := by positivity
  have hmnat : ((m : ℤ) : ℚ) = q * 10 ^ k := by
    rw [hm, Int.toNat_of_nonneg (Rat.num_nonneg.mpr hpos)]
    exact hnum
  have hq : (m : ℚ) = q * 10 ^ k := by exact_mod_cast hmnat
  by_cases hk0 : k = 0
  · have hqm : (m : ℚ) = q := by
      rw [hq, hk0]
      ring
    rw [printQPos, ← hk, if_pos hk0, ← hm]
    have hd' := natDigits_digits (n := m)
    have hne := natDigits_ne_nil m
    rw [parseFloatQ]
    rw [dropWhile_none fun c hc => digit_not_space (hd' c hc)]
    cases h : natDigits m with
    | nil => exact absurd h hne
    | cons c t =>
      have hdc : c.isDigit = true := hd' c (by rw [h]; simp)
      rw [stripSign_digit hdc, ← h, takeWhile_all hd', dropWhile_all hd']
      rw [if_neg (by simp [h])]
      simp [digitsToNat_natDigits, show digitsToNat ([] : List Char) = 0 from rfl,
        dotFrac, hqm]
  · have hk1 : 1 ≤ k := by omega
    have hfrac_lt : m % 10 ^ k < 10 ^ k := Nat.mod_lt _ (by positivity)
    rw [printQPos, ← hk, if_neg hk0, ← hm]
    have hdA := natDigits_digits (n := m / 10 ^ k)
    have hneA := natDigits_ne_nil (m / 10 ^ k)
    have hall : ∀ c ∈ natDigits (m / 10 ^ k) ++ '.' :: padZeros k (m % 10 ^ k),
        isSpaceChar c = false := by
      intro c hc
      rcases List.mem_append.mp hc with hc | hc
      · exact digit_not_space (hdA c hc)
      · rcases List.mem_cons.mp hc with rfl | hc
        · decide
        · exact digit_not_space (padZeros_digits c hc)
    rw [parseFloatQ]
    rw [dropWhile_none hall]
    cases h : natDigits (m / 10 ^ k) with
    | nil => exact absurd h hneA
    | cons c t =>
      have hdc : c.isDigit = true := hdA c (by rw [h]; simp)
      rw [List.cons_append]
      rw [stripSign_digit hdc]
      rw [← List.cons_append, ← h]
      rw [takeWhile_append_stop hdA (by decide), dropWhile_append_stop hdA (by decide)]
      rw [dotFrac, if_pos rfl, takeWhile_all padZeros_digits]
      rw [if_neg (by simp [h, padZeros_ne_nil])]
      simp only [digitsToNat_natDigits, digitsToNat_padZeros,
        padZeros_length hfrac_lt hk1, Bool.false_eq_true, if_false, Option.some.injEq]
      have hsplit : 10 ^ k * (m / 10 ^ k) + m % 10 ^ k = m := Nat.div_add_mod m (10 ^ k)
      have h10 : ((10 : ℚ) ^ k) ≠ 0 := by positivity
      have hcast : ((m : ℚ)) = (10 : ℚ) ^ k * ((m / 10 ^ k : ℕ) : ℚ) + ((m % 10 ^ k : ℕ) : ℚ) := by
        exact_mod_cast hsplit.symm
      have hqq : q = (m : ℚ) / 10 ^ k := by
        rw [eq_div_iff h10]
        linarith [hq]
      rw [hqq, hcast]
      field_simp
      ring

theorem parseFloatQ_printQ {q : ℚ} (h0 : 0 ≤ q) (hd : IsDecimal q) :
    parseFloatQ (printQ q) = some q := by
  rw [printQ, if_neg (not_lt.mpr h0)]
  exact printQPos_spec h0 hd

/-! ## Character content of printed fields -/

theorem printQPos_ne_nil (q : ℚ) : printQPos q ≠ [] := by
  rw [printQPos]
  by_cases h : decExp q = 0
  · rw [if_pos h]
    exact natDigits_ne_nil _
  · rw [if_neg h]
    simp [natDigits_ne_nil]

theorem printQPos_chars {q : ℚ} : ∀ c ∈ printQPos q, c.isDigit = true ∨ c = '.' := by
  intro c hc
  rw [printQPos] at hc
  by_cases h : decExp q = 0
  · rw [if_pos h] at hc
    exact Or.inl (natDigits_digits c hc)
  · rw [if_neg h] at hc
    rcases List.mem_append.mp hc with hc | hc
    · exact Or.inl (natDigits_digits c hc)
    · rcases List.mem_cons.mp hc with rfl | hc
      · exact Or.inr rfl
      · exact Or.inl (padZeros_digits c hc)

theorem printQ_chars {q : ℚ} : ∀ c ∈ printQ q, c.isDigit = true ∨ c = '.' ∨ c = '-' := by
  intro c hc
  rw [printQ] at hc
  by_cases h : q < 0
  · rw [if_pos h] at hc
    rcases List.mem_cons.mp hc with rfl | hc
    · exact Or.inr (Or.inr rfl)
    · rcases printQPos_chars c hc with h' | h'
      · exact Or.inl h'
      · exact Or.inr (Or.inl h')
  · rw [if_neg h] at hc
    rcases printQPos_chars c hc with h' | h'
    · exact Or.inl h'
    · exact Or.inr (Or.inl h')

theorem printIntJS_chars {i : ℤ} : ∀ c ∈ printIntJS i, c.isDigit = true ∨ c = '-' := by
  intro c hc
  rw [printIntJS] at hc
  by_cases h : i < 0
  · rw [if_pos h] at hc
    rcases List.mem_cons.mp hc with rfl | hc
    · exact Or.inr rfl
    · exact Or.inl (natDigits_digits c hc)
  · rw [if_neg h] at hc
    exact Or.inl (natDigits_digits c hc)

theorem pad2_digits {n : ℕ} : ∀ c ∈ pad2 n, c.isDigit = true := by
  intro c hc
  rw [pad2] at hc
  by_cases h : n < 10
  · rw [if_pos h] at hc
    rcases List.mem_cons.mp hc with rfl | hc
    · decide
    · exact natDigits_digits c hc
  · rw [if_neg h] at hc
    exact natDigits_digits c hc

theorem pad2_ne_nil (n : ℕ) : pad2 n ≠ [] := by
  rw [pad2]
  by_cases h : n < 10
  · simp [if_pos h]
  · rw [if_neg h]
    exact natDigits_ne_nil _

theorem digitsToNat_pad2 (n : ℕ) : digitsToNat (pad2 n) = n := by
  rw [pad2]
  by_cases h : n < 10
  · rw [if_pos h]
    have : ('0' :: natDigits n) = List.replicate 1 '0' ++ natDigits n := rfl
    rw [this, digitsToNat_replicate_zero, digitsToNat_natDigits]
  · rw [if_neg h, digitsToNat_natDigits]

theorem formatDate_chars {t : ℕ} : ∀ c ∈ formatDate t, c.isDigit = true ∨ c = '/' := by
  intro c hc
  rw [formatDate] at hc
  simp only [joinSep] at hc
  rcases List.mem_append.mp hc with hc | hc
  · exact Or.inl (natDigits_digits c hc)
  · rcases List.mem_cons.mp hc with rfl | hc
    · exact Or.inr rfl
    · rcases List.mem_append.mp hc with hc | hc
      · exact Or.inl (pad2_digits c hc)
      · rcases List.mem_cons.mp hc with rfl | hc
        · exact Or.inr rfl
        · exact Or.inl (pad2_digits c hc)

theorem last_digit_of_all {l : List Char} (hne : l ≠ []) (h : ∀ c ∈ l, c.isDigit = true) :
    ∃ c, l.getLast? = some c ∧ c.isDigit = true :=
  ⟨l.getLast hne, List.getLast?_eq_getLast l hne, h _ (List.getLast_mem hne)⟩

theorem head_digit_of_all {l : List Char} (hne : l ≠ []) (h : ∀ c ∈ l, c.isDigit = true) :
    ∃ c, l.head? = some c ∧ c.isDigit = true :=
  ⟨l.head hne, List.head?_eq_head hne, h _ (List.head_mem hne)⟩

theorem printQ_last_digit (q : ℚ) :
    ∃ c, (printQ q).getLast? = some c ∧ c.isDigit = true := by
  have hpos : ∀ q' : ℚ, ∃ c, (printQPos q').getLast? = some c ∧ c.isDigit = true := by
    intro q'
    rw [printQPos]
    by_cases h : decExp q' = 0
    · rw [if_pos h]
      exact last_digit_of_all (natDigits_ne_nil _) natDigits_digits
    · rw [if_neg h]
      obtain ⟨c, hc, hcd⟩ :=
        last_digit_of_all
          (l := padZeros (decExp q') ((q' * 10 ^ decExp q').num.toNat % 10 ^ decExp q'))
          (padZeros_ne_nil _ _) padZeros_digits
      refine ⟨c, ?_, hcd⟩
      have hrepr : ('.' :: padZeros (decExp q') ((q' * 10 ^ decExp q').num.toNat % 10 ^ decExp q'))
          = ['.'] ++ padZeros (decExp q') ((q' * 10 ^ decExp q').num.toNat % 10 ^ decExp q') := rfl
      rw [List.getLast?_append, hrepr, List.getLast?_append, hc]
      rfl
  rw [printQ]
  by_cases h : q < 0
  · rw [if_pos h]
    obtain ⟨c, hc, hcd⟩ := hpos (-q)
    refine ⟨c, ?_, hcd⟩
    have hrepr : ('-' :: printQPos (-q)) = ['-'] ++ printQPos (-q) := rfl
    rw [hrepr, List.getLast?_append, hc]
    rfl
  · rw [if_neg h]
    exact hpos q

theorem formatDate_head_digit (t : ℕ) :
    ∃ c, (formatDate t).head? = some c ∧ c.isDigit = true := by
  obtain ⟨c, hc, hcd⟩ :=
    head_digit_of_all (natDigits_ne_nil (dayYear (dayNumber t))) natDigits_digits
  refine ⟨c, ?_, hcd⟩
  rw [formatDate]
  simp only [joinSep]
  rw [List.head?_append, hc]
  rfl

/-! ## split / join round trip -/

theorem splitSep_no_sep {sep : Char} {x : List Char} (h : sep ∉ x) :
    splitSep sep x = [x] := by
  induction x with
  | nil => rfl
  | cons c t ih =>
    have hc : ¬ c = sep := fun hc => h (by simp [hc])
    have ht : sep ∉ t := fun hm => h (by simp [hm])
    rw [splitSep, if_neg hc, ih ht]

theorem splitSep_append_sep {sep : Char} {x t : List Char} (h : sep ∉ x) :
    splitSep sep (x ++ sep :: t) = x :: splitSep sep t := by
  induction x with
  | nil => simp [splitSep]
  | cons c cs ih =>
    have hc : ¬ c = sep := fun hc => h (by simp [hc])
    have hcs : sep ∉ cs := fun hm => h (by simp [hm])
    rw [List.cons_append, splitSep, if_neg hc, ih hcs]

theorem joinSep_pair (sep : Char) (x y : List Char) (ys : List (List Char)) :
    joinSep sep (x :: y :: ys) = x ++ sep :: joinSep sep (y :: ys) := rfl

theorem splitSep_joinSep {sep : Char} {ps : List (List Char)} (hne : ps ≠ [])
    (hp : ∀ p ∈ ps, sep ∉ p) : splitSep sep (joinSep sep ps) = ps := by
  induction ps with
  | nil => exact absurd rfl hne
  | cons x xs ih =>
    cases xs with
    | nil => rw [joinSep, splitSep_no_sep (hp x (by simp))]
    | cons y ys =>
      rw [joinSep_pair, splitSep_append_sep (hp x (by simp)),
        ih (List.cons_ne_nil y ys) fun p hm => hp p (by simp [hm])]

/-! ## Date round trip -/

theorem splitSep_formatDate (t : ℕ) :
    splitSep '/' (formatDate t) =
      [natDigits (dayYear (dayNumber t)), pad2 (dayMonth (dayNumber t)),
        pad2 (dayDom (dayNumber t))] := by
  apply splitSep_joinSep (by simp)
  intro p hp hmem
  have hdig : p = natDigits (dayYear (dayNumber t)) ∨ p = pad2 (dayMonth (dayNumber t)) ∨
      p = pad2 (dayDom (dayNumber t)) := by simpa using hp
  rcases hdig with rfl | rfl | rfl
  · exact absurd (natDigits_digits _ hmem) (by decide)
  · exact absurd (pad2_digits _ hmem) (by decide)
  · exact absurd (pad2_digits _ hmem) (by decide)

theorem parseDateJS_split {s : List Char} {ys ms ds : List Char}
    (h : splitSep '/' s = [ys, ms, ds]) : parseDateJS s = parseYMD ys ms ds := by
  rw [parseDateJS, h]

theorem parseDateJS_formatDate (t : ℕ) :
    parseDateJS (formatDate t) = some (dayNumber t * msPerDay) := by
  rw [parseDateJS_split (splitSep_formatDate t), parseYMD]
  have hya : (natDigits (dayYear (dayNumber t))).all Char.isDigit = true :=
    List.all_eq_true.mpr fun c hc => natDigits_digits c hc
  have hma : (pad2 (dayMonth (dayNumber t))).all Char.isDigit = true :=
    List.all_eq_true.mpr fun c hc => pad2_digits c hc
  have hda : (pad2 (dayDom (dayNumber t))).all Char.isDigit = true :=
    List.all_eq_true.mpr fun c hc => pad2_digits c hc
  have hyne : (natDigits (dayYear (dayNumber t))).isEmpty = false := by
    simpa [List.isEmpty_iff] using natDigits_ne_nil (dayYear (dayNumber t))
  have hmne : (pad2 (dayMonth (dayNumber t))).isEmpty = false := by
    simpa [List.isEmpty_iff] using pad2_ne_nil (dayMonth (dayNumber t))
  have hdne : (pad2 (dayDom (dayNumber t))).isEmpty = false := by
    simpa [List.isEmpty_iff] using pad2_ne_nil (dayDom (dayNumber t))
  simp only [hya, hma, hda, hyne, hmne, hdne, Bool.not_false, Bool.and_self, Bool.true_and,
    if_true, digitsToNat_natDigits, digitsToNat_pad2]
  have hcond : (1970 ≤ dayYear (dayNumber t)
      && (1 ≤ dayMonth (dayNumber t) && dayMonth (dayNumber t) ≤ 12)
      && (1 ≤ dayDom (dayNumber t) && dayDom (dayNumber t) ≤ 31)) = true := by
    simp only [dayYear, dayMonth, dayDom, Bool.and_eq_true, decide_eq_true_eq]
    omega
  rw [if_pos hcond]
  have hval : (dayYear (dayNumber t) - 1970) * 372 + (dayMonth (dayNumber t) - 1) * 31 +
      (dayDom (dayNumber t) - 1) = dayNumber t := by
    simp only [dayYear, dayMonth, dayDom]
    have h31 : dayNumber t % 372 % 31 = dayNumber t % 31 :=
      Nat.mod_mod_of_dvd _ (by norm_num)
    omega
  rw [hval]

/-! ## trim -/

theorem trimChars_eq_self {s : List Char} (hh : ∀ c, s.head? = some c → isSpaceChar c = false)
    (hl : ∀ c, s.getLast? = some c → isSpaceChar c = false) : trimChars s = s := by
  cases s with
  | nil => rfl
  | cons x xs =>
    have hx : isSpaceChar x = false := hh x rfl
    rw [trimChars, List.dropWhile_cons, hx]
    simp only [Bool.false_eq_true, if_false]
    cases hrev : (x :: xs).reverse with
    | nil => exact absurd hrev (by simp)
    | cons y ys =>
      have hy : isSpaceChar y = false := by
        refine hl y ?_
        rw [← List.head?_reverse, hrev]
        rfl
      rw [List.dropWhile_cons, hy]
      simp only [Bool.false_eq_true, if_false]
      rw [← hrev, List.reverse_reverse]

/-! ## Registry lemmas -/

theorem jsSetDedup_congr {s1 s2 : List String} (h : ∀ a, a ∈ s1 ↔ a ∈ s2) :
    ∀ l, jsSetDedup s1 l = jsSetDedup s2 l := by
  intro l
  induction l generalizing s1 s2 with
  | nil => rfl
  | cons x xs ih =>
    rw [jsSetDedup, jsSetDedup]
    by_cases hx : x ∈ s1
    · rw [if_pos hx, if_pos ((h x).mp hx)]
      exact ih h
    · rw [if_neg hx, if_neg fun hh => hx ((h x).mpr hh)]
      have h2 : jsSetDedup (x :: s1) xs = jsSetDedup (x :: s2) xs :=
        ih fun a => by simp only [List.mem_cons, h a]
      rw [h2]

theorem jsSetDedup_append (s xs ys : List String) :
    jsSetDedup s (xs ++ ys) = jsSetDedup s xs ++ jsSetDedup (xs ++ s) ys := by
  induction xs generalizing s with
  | nil => simp [jsSetDedup]
  | cons x xs ih =>
    rw [List.cons_append, jsSetDedup, jsSetDedup]
    by_cases hx : x ∈ s
    · rw [if_pos hx, if_pos hx, ih]
      have : jsSetDedup (xs ++ s) ys = jsSetDedup (x :: xs ++ s) ys :=
        jsSetDedup_congr (fun a => by
          simp only [List.cons_append, List.mem_cons]
          constructor
          · intro h
            exact Or.inr h
          · rintro (rfl | h)
            · simp [hx]
            · exact h) ys
      rw [this]
    · rw [if_neg hx, if_neg hx, ih (x :: s), List.cons_append]
      have : jsSetDedup (xs ++ x :: s) ys = jsSetDedup (x :: xs ++ s) ys :=
        jsSetDedup_congr (fun a => by
          simp only [List.cons_append, List.mem_cons, List.mem_append]
          tauto) ys
      rw [this]

theorem jsSetDedup_nodup (s l : List String) :
    (jsSetDedup s l).Nodup ∧ ∀ x ∈ jsSetDedup s l, x ∉ s := by
  induction l generalizing s with
  | nil => simp [jsSetDedup]
  | cons x xs ih =>
    rw [jsSetDedup]
    by_cases hx : x ∈ s
    · rw [if_pos hx]
      exact ih s
    · rw [if_neg hx]
      obtain ⟨hnd, hmem⟩ := ih (x :: s)
      refine ⟨List.nodup_cons.mpr ⟨fun hc => (hmem x hc) (by simp), hnd⟩, ?_⟩
      intro y hy
      rcases List.mem_cons.mp hy with rfl | hy
      · exact hx
      · intro hns
        exact hmem y hy (by simp [hns])

theorem jsSetDedup_id {l : List String} (hnd : l.Nodup) :
    ∀ s, (∀ x ∈ l, x ∉ s) → jsSetDedup s l = l := by
  induction l with
  | nil => intro s _; rfl
  | cons x xs ih =>
    intro s hdisj
    obtain ⟨hx, hnd'⟩ := List.nodup_cons.mp hnd
    rw [jsSetDedup, if_neg (hdisj x (by simp))]
    rw [ih hnd' (x :: s) ?_]
    intro y hy
    intro hc
    rcases List.mem_cons.mp hc with rfl | hc
    · exact hx hy
    · exact hdisj y (by simp [hy]) hc

theorem mergeRegistry_spec (custom : List String) :
    mergeRegistry custom = specRegistryMerge custom := by
  rw [mergeRegistry, specRegistryMerge, jsSetDedup_append]
  rw [jsSetDedup_id (by decide) [] (by simp)]
  have h2 : jsSetDedup (INITIAL_EXERCISES ++ []) custom = jsSetDedup INITIAL_EXERCISES custom :=
    jsSetDedup_congr (fun a => by simp) custom
  rw [h2]

/-- Claim C6: the effective exercise registry is the deduplicated union of the
built-in and custom lists — built-ins first in original order, then the
not-already-present custom names in append order, deduplicated by exact string
match — it never contains duplicates, and merging a custom list that already
holds the built-in "ベンチプレス" yields the built-in list unchanged
(idempotence of the merge on that name). -/
theorem claim_C6 (customExercises : List String) :
    mergeRegistry customExercises = specRegistryMerge customExercises
      ∧ (mergeRegistry customExercises).Nodup
      ∧ mergeRegistry ["ベンチプレス"] = INITIAL_EXERCISES := by
  refine ⟨mergeRegistry_spec customExercises, ?_, by decide⟩
  exact (jsSetDedup_nodup [] (INITIAL_EXERCISES ++ customExercises)).1

/-- Claim C9 counterexample: with no authenticated session, adding a fresh,
nonempty custom name issues no write at all, so the claim's unconditional
"otherwise the name is appended and persisted" branch fails on the code. -/
theorem claim_C9_counterexample :
    "ラットプルダウン" ≠ "" ∧ "ラットプルダウン" ∉ INITIAL_EXERCISES ∧
      handleAddExercise "ラットプルダウン" INITIAL_EXERCISES none = none := by
  refine ⟨by decide, by decide, ?_⟩
  rw [handleAddExercise, if_neg]
  rintro ⟨-, -, h⟩
  simp at h

/-- Claim C9 (amended): adding a name that is empty or already present in the
merged registry is a complete no-op (no write); otherwise — provided an
authenticated session exists — the name is appended to the custom subset
(the non-built-in entries) and that list is the single write issued against
the configuration document. -/
theorem claim_C9 (newExerciseName : String) (exercises : List String) (user : Option String) :
    (newExerciseName = "" ∨ newExerciseName ∈ exercises →
        handleAddExercise newExerciseName exercises user = none)
      ∧ (newExerciseName ≠ "" → newExerciseName ∉ exercises → user.isSome →
          handleAddExercise newExerciseName exercises user =
            some ((exercises.filter fun e => e ∉ INITIAL_EXERCISES) ++ [newExerciseName])) := by
  constructor
  · intro h
    rw [handleAddExercise, if_neg]
    rintro ⟨h1, h2, -⟩
    rcases h with rfl | hm
    · exact h1 rfl
    · exact h2 hm
  · intro h1 h2 h3
    rw [handleAddExercise, if_pos ⟨h1, h2, h3⟩]

/-- Witness for C9: a duplicate add is a no-op; a fresh add with a session
returns the appended custom list. -/
theorem claim_C9_witness :
    handleAddExercise "ベンチプレス" INITIAL_EXERCISES (some "u") = none ∧
      handleAddExercise "懸垂" INITIAL_EXERCISES (some "u") =
        some ((INITIAL_EXERCISES.filter fun e => e ∉ INITIAL_EXERCISES) ++ ["懸垂"]) :=
  ⟨(claim_C9 "ベンチプレス" INITIAL_EXERCISES (some "u")).1 (Or.inr (by decide)),
    (claim_C9 "懸垂" INITIAL_EXERCISES (some "u")).2 (by decide) (by decide) rfl⟩

/-! ## The estimator claims -/

/-- Claim C2: for every weight `w > 0` and reps `r > 0`, the estimator returns
the Epley value rounded to one decimal place, `round(w * (1 + r / 30) * 10) / 10`
(`Math.round` rounds half up); in particular `calculate1RM 100 5 = 116.7`. -/
theorem claim_C2 :
    (∀ w r : ℚ, 0 < w → 0 < r →
        calculate1RM w r = (jsRound (w * (1 + r / 30) * 10) : ℚ) / 10)
      ∧ calculate1RM 100 5 = 1167 / 10 := by
  constructor
  · intro w r hw hr
    rw [calculate1RM, if_neg]
    push_neg
    exact ⟨ne_of_gt hw, ne_of_gt hr⟩
  · norm_num [calculate1RM, jsRound]

/-- Witness for C2 at `(w, r) = (100, 5)`. -/
theorem claim_C2_witness :
    (0 : ℚ) < 100 ∧ (0 : ℚ) < 5 ∧
      calculate1RM 100 5 = (jsRound (100 * (1 + 5 / 30) * 10) : ℚ) / 10 :=
  ⟨by norm_num, by norm_num, claim_C2.1 100 5 (by norm_num) (by norm_num)⟩

/-- Claim C8: when either input is zero, absent (`undefined`) or non-numeric
(`NaN`) — the falsy JavaScript numbers — the estimator returns the `0`
sentinel (the model is a total function, so no exception is possible); in
particular `calculate1RMJS 0 5 = 0` and `calculate1RMJS 100 0 = 0`. -/
theorem claim_C8 :
    (∀ w r : Option ℚ, w = none ∨ w = some 0 ∨ r = none ∨ r = some 0 →
        calculate1RMJS w r = 0)
      ∧ calculate1RMJS (some 0) (some 5) = 0 ∧ calculate1RMJS (some 100) (some 0) = 0 := by
  refine ⟨?_, by norm_num [calculate1RMJS, jsFalsyNum], by norm_num [calculate1RMJS, jsFalsyNum]⟩
  intro w r h
  rcases h with rfl | rfl | rfl | rfl <;> simp [calculate1RMJS, jsFalsyNum]

/-- Witness for C8 at `(w, r) = (NaN, 5)`. -/
theorem claim_C8_witness :
    ((none : Option ℚ) = none ∨ (none : Option ℚ) = some 0 ∨ (some (5 : ℚ) : Option ℚ) = none
        ∨ (some (5 : ℚ) : Option ℚ) = some 0)
      ∧ calculate1RMJS none (some 5) = 0 :=
  ⟨Or.inl rfl, claim_C8.1 none (some 5) (Or.inl rfl)⟩

/-! ## Saving a log: claims C7 and C5 -/

/-- Claim C7 counterexample: a nonempty but unparseable weight string
(`"abc"`, whose `parseFloat` is `NaN`) together with a parseable reps string
and a live session is not declined — `handleSaveLog` produces a payload and
issues the write, contradicting the claim that unparseable input is declined. -/
theorem claim_C7_counterexample :
    parseFloatQ "abc".data = none ∧
      handleSaveLog "abc".data "5".data (some "uid") "2024-01-10".data 12 0 "ベンチプレス"
        ≠ none := by
  constructor
  · decide
  · decide

/-- Claim C7 (amended): the save action declines to produce a payload (and so
issues no write) exactly when the weight string is empty, the reps string is
empty, or no authenticated session exists; the model is a total function and
the source wraps the write in `try/catch`, so no exception propagates.  (A
nonempty unparseable string is not declined: see the counterexample.) -/
theorem claim_C7 (weight reps : List Char) (user : Option String) (recordDate : List Char)
    (nowH nowM : ℕ) (selectedExercise : String) :
    handleSaveLog weight reps user recordDate nowH nowM selectedExercise = none ↔
      weight = [] ∨ reps = [] ∨ user = none := by
  by_cases hw : weight = [] <;> by_cases hr : reps = [] <;> by_cases hu : user = none <;>
    simp [handleSaveLog, hw, hr, hu, List.isEmpty_iff, Option.isNone_iff_eq_none]

/-- Claim C5 (save half): every payload the save action produces stores
`oneRM` as the estimator applied to the very `weight` and `reps` values
stored in that payload. -/
theorem claim_C5_save (weight reps : List Char) (user : Option String)
    (recordDate : List Char) (nowH nowM : ℕ) (selectedExercise : String) (p : LogPayload)
    (h : handleSaveLog weight reps user recordDate nowH nowM selectedExercise = some p) :
    p.oneRM = calculate1RMJS p.weight (p.reps.map fun i => (i : ℚ)) := by
  rw [handleSaveLog] at h
  by_cases hc : weight.isEmpty || reps.isEmpty || user.isNone
  · rw [if_pos hc] at h
    exact absurd h (by simp)
  · rw [if_neg hc] at h
    obtain rfl := Option.some.inj h
    rfl

/-! ## Association-list lemmas for the dailyMax object -/

theorem lookup_eq_none_iff {m : List (ℕ × ℚ)} {d : ℕ} :
    m.lookup d = none ↔ d ∉ m.map Prod.fst := by
  induction m with
  | nil => simp
  | cons p m ih =>
    obtain ⟨k, u⟩ := p
    by_cases h : d = k
    · subst h
      simp [List.lookup]
    · have hk : (d == k) = false := beq_eq_false_iff_ne.mpr h
      simp [List.lookup, hk, ih, h]

theorem mem_keys_of_lookup {m : List (ℕ × ℚ)} {d : ℕ} {v : ℚ} (h : m.lookup d = some v) :
    d ∈ m.map Prod.fst := by
  by_contra hc
  rw [← lookup_eq_none_iff] at hc
  rw [h] at hc
  exact Option.noConfusion hc

theorem lookup_append_left {m m' : List (ℕ × ℚ)} {d : ℕ} {v : ℚ} (h : m.lookup d = some v) :
    (m ++ m').lookup d = some v := by
  induction m with
  | nil => simp [List.lookup] at h
  | cons p m ih =>
    obtain ⟨k, u⟩ := p
    rw [List.cons_append]
    by_cases hk : (d == k) = true
    · simp only [List.lookup, hk] at h ⊢
      exact h
    · have hk' : (d == k) = false := by simpa using hk
      simp only [List.lookup, hk'] at h ⊢
      exact ih h

theorem lookup_append_right {m m' : List (ℕ × ℚ)} {d : ℕ} (h : m.lookup d = none) :
    (m ++ m').lookup d = m'.lookup d := by
  induction m with
  | nil => rfl
  | cons p m ih =>
    obtain ⟨k, u⟩ := p
    rw [List.cons_append]
    by_cases hk : (d == k) = true
    · simp only [List.lookup, hk] at h
      exact Option.noConfusion h
    · have hk' : (d == k) = false := by simpa using hk
      simp only [List.lookup, hk'] at h ⊢
      exact ih h

theorem lookup_map_update_self {m : List (ℕ × ℚ)} {d : ℕ} {v0 : ℚ} (w : ℚ)
    (h : m.lookup d = some v0) :
    (m.map fun p => if p.1 = d then (d, w) else p).lookup d = some w := by
  induction m with
  | nil => simp [List.lookup] at h
  | cons p m ih =>
    obtain ⟨k, u⟩ := p
    rw [List.map_cons]
    by_cases hk : (d == k) = true
    · have hdk : k = d := (beq_iff_eq.mp hk).symm
      subst hdk
      rw [if_pos rfl]
      simp [List.lookup]
    · have hk' : (d == k) = false := by simpa using hk
      simp only [List.lookup, hk'] at h
      have hkd : ¬ k = d := fun he => hk (by simp [he])
      rw [if_neg hkd]
      simp only [List.lookup, hk']
      exact ih h

theorem lookup_map_update_other {m : List (ℕ × ℚ)} {d d' : ℕ} (w : ℚ) (h : d' ≠ d) :
    (m.map fun p => if p.1 = d then (d, w) else p).lookup d' = m.lookup d' := by
  induction m with
  | nil => rfl
  | cons p m ih =>
    obtain ⟨k, u⟩ := p
    rw [List.map_cons]
    by_cases hk : k = d
    · subst hk
      rw [if_pos rfl]
      have hne : (d' == k) = false := beq_eq_false_iff_ne.mpr h
      simp only [List.lookup, hne]
      exact ih
    · rw [if_neg hk]
      by_cases hdk : (d' == k) = true
      · simp only [List.lookup, hdk]
      · have hdk' : (d' == k) = false := by simpa using hdk
        simp only [List.lookup, hdk']
        exact ih

theorem map_fst_map_update {m : List (ℕ × ℚ)} {d : ℕ} (w : ℚ) :
    ((m.map fun p => if p.1 = d then (d, w) else p).map Prod.fst) = m.map Prod.fst := by
  rw [List.map_map]
  apply List.map_congr_left
  intro p _
  by_cases h : p.1 = d
  · simp [h]
  · simp [h]

theorem dmInsert_keys (m : List (ℕ × ℚ)) (d : ℕ) (v : ℚ) :
    (dmInsert m d v).map Prod.fst =
      if d ∈ m.map Prod.fst then m.map Prod.fst else m.map Prod.fst ++ [d] := by
  cases h : m.lookup d with
  | none =>
    rw [if_neg (lookup_eq_none_iff.mp h)]
    simp [dmInsert, h]
  | some v0 =>
    rw [if_pos (mem_keys_of_lookup h)]
    simp only [dmInsert, h]
    by_cases hv : v0 < v
    · rw [if_pos hv, map_fst_map_update]
    · rw [if_neg hv]

theorem lookup_dmInsert_self (m : List (ℕ × ℚ)) (d : ℕ) (v : ℚ) :
    (dmInsert m d v).lookup d = some (match m.lookup d with
      | none => v
      | some v0 => max v0 v) := by
  cases h : m.lookup d with
  | none =>
    simp only [dmInsert, h]
    rw [lookup_append_right h]
    simp [List.lookup]
  | some v0 =>
    simp only [dmInsert, h]
    by_cases hv : v0 < v
    · rw [if_pos hv, lookup_map_update_self v h, max_eq_right hv.le]
    · rw [if_neg hv, h, max_eq_left (not_lt.mp hv)]

theorem lookup_dmInsert_other (m : List (ℕ × ℚ)) (d : ℕ) (v : ℚ) {d' : ℕ} (h : d' ≠ d) :
    (dmInsert m d v).lookup d' = m.lookup d' := by
  cases hl : m.lookup d with
  | none =>
    simp only [dmInsert, hl]
    cases hl' : m.lookup d' with
    | none =>
      rw [lookup_append_right hl']
      simp [List.lookup, beq_eq_false_iff_ne.mpr h]
    | some u => exact lookup_append_left hl'
  | some v0 =>
    simp only [dmInsert, hl]
    by_cases hv : v0 < v
    · rw [if_pos hv]
      exact lookup_map_update_other v h
    · rw [if_neg hv]

/-! ## The dailyMax fold -/

theorem lookup_dailyFold (d : ℕ) :
    ∀ (l : List LogRec) (m : List (ℕ × ℚ)),
      (dailyFold m l).lookup d = mergeMax (m.lookup d) (dayMax l d) := by
  intro l
  induction l with
  | nil =>
    intro m
    rw [dailyFold, dayMax]
    cases m.lookup d with
    | none => rfl
    | some v => rfl
  | cons r rs ih =>
    intro m
    rw [dailyFold, ih]
    by_cases hd : dayNumber r.date = d
    · subst hd
      rw [lookup_dmInsert_self, dayMax, if_pos rfl]
      cases hm : m.lookup (dayNumber r.date) with
      | none =>
        cases hrs : dayMax rs (dayNumber r.date) with
        | none => rfl
        | some w => rfl
      | some v0 =>
        cases hrs : dayMax rs (dayNumber r.date) with
        | none => rfl
        | some w =>
          show some (max (max v0 r.oneRM) w) = some (max v0 (max r.oneRM w))
          rw [max_assoc]
    · rw [lookup_dmInsert_other _ _ _ (Ne.symm hd), dayMax, if_neg hd]

theorem newDays_congr {s1 s2 : List ℕ} (h : ∀ a, a ∈ s1 ↔ a ∈ s2) :
    ∀ l, newDays s1 l = newDays s2 l := by
  intro l
  induction l generalizing s1 s2 with
  | nil => rfl
  | cons r rs ih =>
    rw [newDays, newDays]
    by_cases hd : dayNumber r.date ∈ s1
    · rw [if_pos hd, if_pos ((h _).mp hd)]
      exact ih h
    · rw [if_neg hd, if_neg fun hc => hd ((h _).mpr hc)]
      have h2 : newDays (dayNumber r.date :: s1) rs = newDays (dayNumber r.date :: s2) rs :=
        ih fun a => by simp only [List.mem_cons, h a]
      rw [h2]

theorem dailyFold_keys :
    ∀ (l : List LogRec) (m : List (ℕ × ℚ)),
      (dailyFold m l).map Prod.fst = m.map Prod.fst ++ newDays (m.map Prod.fst) l := by
  intro l
  induction l with
  | nil =>
    intro m
    rw [dailyFold, newDays, List.append_nil]
  | cons r rs ih =>
    intro m
    rw [dailyFold, ih, dmInsert_keys, newDays]
    by_cases hd : dayNumber r.date ∈ m.map Prod.fst
    · rw [if_pos hd, if_pos hd]
    · rw [if_neg hd, if_neg hd, List.append_assoc]
      congr 1
      rw [List.singleton_append]
      congr 1
      apply newDays_congr
      intro a
      simp only [List.mem_append, List.mem_singleton, List.mem_cons]
      tauto

theorem newDays_mem {x : ℕ} :
    ∀ (l : List LogRec) (seen : List ℕ), x ∈ newDays seen l →
      x ∉ seen ∧ ∃ r ∈ l, dayNumber r.date = x := by
  intro l
  induction l with
  | nil => intro seen h; simp [newDays] at h
  | cons r rs ih =>
    intro seen h
    rw [newDays] at h
    by_cases hd : dayNumber r.date ∈ seen
    · rw [if_pos hd] at h
      obtain ⟨h1, r', hr', hx⟩ := ih seen h
      exact ⟨h1, r', by simp [hr'], hx⟩
    · rw [if_neg hd] at h
      rcases List.mem_cons.mp h with rfl | h
      · exact ⟨hd, r, by simp, rfl⟩
      · obtain ⟨h1, r', hr', hx⟩ := ih _ h
        exact ⟨fun hc => h1 (by simp [hc]), r', by simp [hr'], hx⟩

theorem newDays_mem_iff {x : ℕ} :
    ∀ (l : List LogRec) (seen : List ℕ),
      x ∈ newDays seen l ↔ x ∉ seen ∧ ∃ r ∈ l, dayNumber r.date = x := by
  intro l
  induction l with
  | nil => intro seen; simp [newDays]
  | cons r rs ih =>
    intro seen
    constructor
    · exact newDays_mem (r :: rs) seen
    · rintro ⟨hns, r', hr', hx⟩
      rw [newDays]
      by_cases hd : dayNumber r.date ∈ seen
      · rw [if_pos hd]
        rcases List.mem_cons.mp hr' with rfl | hr'
        · exact absurd (hx ▸ hd) hns
        · exact (ih seen).mpr ⟨hns, r', hr', hx⟩
      · rw [if_neg hd]
        by_cases hxr : x = dayNumber r.date
        · subst hxr
          simp
        · rcases List.mem_cons.mp hr' with rfl | hr'
          · exact absurd hx.symm hxr
          · refine List.mem_cons_of_mem _ ((ih _).mpr ⟨?_, r', hr', hx⟩)
            intro hc
            rcases List.mem_cons.mp hc with hc | hc
            · exact hxr hc
            · exact hns hc

theorem newDays_sorted :
    ∀ (l : List LogRec) (seen : List ℕ),
      l.Pairwise (fun a b => dayNumber a.date ≤ dayNumber b.date) →
      (newDays seen l).Pairwise (· < ·) := by
  intro l
  induction l with
  | nil => intro seen _; simp [newDays]
  | cons r rs ih =>
    intro seen hp
    obtain ⟨hr, hrs⟩ := List.pairwise_cons.mp hp
    rw [newDays]
    by_cases hd : dayNumber r.date ∈ seen
    · rw [if_pos hd]
      exact ih seen hrs
    · rw [if_neg hd]
      refine List.pairwise_cons.mpr ⟨?_, ih _ hrs⟩
      intro x hx
      obtain ⟨hns, r', hr', hxr⟩ := newDays_mem rs _ hx
      have hle : dayNumber r.date ≤ x := hxr ▸ hr r' hr'
      have hne : x ≠ dayNumber r.date := fun hc => hns (by simp [hc])
      omega

/-! ## dayMax lemmas -/

theorem dayMax_eq_none_iff {l : List LogRec} {d : ℕ} :
    dayMax l d = none ↔ ∀ r ∈ l, dayNumber r.date ≠ d := by
  induction l with
  | nil => simp [dayMax]
  | cons r rs ih =>
    rw [dayMax]
    by_cases hd : dayNumber r.date = d
    · rw [if_pos hd]
      cases hrs : dayMax rs d with
      | none => simp [hd]
      | some w => simp [hd]
    · rw [if_neg hd]
      simp [ih, hd]

theorem dayMax_spec {d : ℕ} :
    ∀ {l : List LogRec} {v : ℚ}, dayMax l d = some v →
      (∃ r ∈ l, dayNumber r.date = d ∧ r.oneRM = v) ∧
        ∀ r ∈ l, dayNumber r.date = d → r.oneRM ≤ v := by
  intro l
  induction l with
  | nil => intro v h; simp [dayMax] at h
  | cons r rs ih =>
    intro v h
    rw [dayMax] at h
    by_cases hd : dayNumber r.date = d
    · rw [if_pos hd] at h
      cases hrs : dayMax rs d with
      | none =>
        rw [hrs] at h
        obtain rfl := Option.some.inj h
        refine ⟨⟨r, by simp, hd, rfl⟩, ?_⟩
        intro r' hr' hd'
        rcases List.mem_cons.mp hr' with rfl | hr'
        · exact le_refl _
        · exact absurd hd' (dayMax_eq_none_iff.mp hrs r' hr')
      | some w =>
        rw [hrs] at h
        obtain rfl := Option.some.inj h
        obtain ⟨⟨r'', hr'', hd'', hv''⟩, hbound⟩ := ih hrs
        constructor
        · rcases le_total r.oneRM w with hle | hle
          · exact ⟨r'', by simp [hr''], hd'', by rw [hv'', max_eq_right hle]⟩
          · exact ⟨r, by simp, hd, (max_eq_left hle).symm⟩
        · intro r' hr' hd'
          rcases List.mem_cons.mp hr' with rfl | hr'
          · exact le_max_left _ _
          · exact le_trans (hbound r' hr' hd') (le_max_right _ _)
    · rw [if_neg hd] at h
      obtain ⟨⟨r'', hr'', hd'', hv''⟩, hbound⟩ := ih h
      refine ⟨⟨r'', by simp [hr''], hd'', hv''⟩, ?_⟩
      intro r' hr' hd'
      rcases List.mem_cons.mp hr' with rfl | hr'
      · exact absurd hd' hd
      · exact hbound r' hr' hd'

theorem lookup_of_mem_nodup {m : List (ℕ × ℚ)} (hnd : (m.map Prod.fst).Nodup) {d : ℕ} {v : ℚ}
    (h : (d, v) ∈ m) : m.lookup d = some v := by
  induction m with
  | nil => simp at h
  | cons p m ih =>
    obtain ⟨k, u⟩ := p
    rw [List.map_cons] at hnd
    obtain ⟨hk, hnd'⟩ := List.nodup_cons.mp hnd
    rcases List.mem_cons.mp h with heq | hmem
    · obtain ⟨rfl, rfl⟩ := Prod.mk.injEq .. ▸ heq
      simp [List.lookup]
    · by_cases hdk : d = k
      · subst hdk
        exact absurd (List.mem_map.mpr ⟨(d, v), hmem, rfl⟩) hk
      · have hk' : (d == k) = false := beq_eq_false_iff_ne.mpr hdk
        simp only [List.lookup, hk']
        exact ih hnd' hmem

/-- Claim C1: for every log collection and selected exercise, the progress
series is one point per distinct calendar day of that exercise, in strictly
ascending day order, and each point's `oneRM` is the maximum `oneRM` of that
exercise's records on that day (so a same-day record with a lower value never
replaces a higher one, while a higher one does, regardless of arrival order);
`chartData` is exactly this keyed series with the month/day display label. -/
theorem claim_C1 (logs : List LogRec) (selectedExercise : String) :
    ((chartEntries logs selectedExercise).map Prod.fst).Pairwise (· < ·)
      ∧ (∀ d, d ∈ (chartEntries logs selectedExercise).map Prod.fst ↔
          ∃ r ∈ logs, r.exercise = selectedExercise ∧ dayNumber r.date = d)
      ∧ (∀ d v, (d, v) ∈ chartEntries logs selectedExercise →
          (∃ r ∈ logs, r.exercise = selectedExercise ∧ dayNumber r.date = d ∧ r.oneRM = v)
            ∧ ∀ r ∈ logs, r.exercise = selectedExercise → dayNumber r.date = d → r.oneRM ≤ v)
      ∧ chartData logs selectedExercise =
          (chartEntries logs selectedExercise).map fun p => (monthDayLabel p.1, p.2) := by
  have hperm : List.Perm
      ((logs.filter fun l => l.exercise == selectedExercise).insertionSort dateLE)
      (logs.filter fun l => l.exercise == selectedExercise) :=
    List.perm_insertionSort dateLE _
  have hmemL : ∀ r, r ∈ (logs.filter fun l => l.exercise == selectedExercise).insertionSort dateLE
      ↔ r ∈ logs ∧ r.exercise = selectedExercise := by
    intro r
    rw [hperm.mem_iff, List.mem_filter]
    simp [beq_iff_eq]
  have hsorted : ((logs.filter fun l => l.exercise == selectedExercise).insertionSort
      dateLE).Pairwise dateLE := List.sorted_insertionSort dateLE _
  have hdays : ((logs.filter fun l => l.exercise == selectedExercise).insertionSort
      dateLE).Pairwise (fun a b => dayNumber a.date ≤ dayNumber b.date) :=
    hsorted.imp fun h => Nat.div_le_div_right h
  have hkeys : (chartEntries logs selectedExercise).map Prod.fst =
      newDays [] ((logs.filter fun l => l.exercise == selectedExercise).insertionSort dateLE) := by
    rw [chartEntries, dailyFold_keys]
    rfl
  have hpair : ((chartEntries logs selectedExercise).map Prod.fst).Pairwise (· < ·) := by
    rw [hkeys]
    exact newDays_sorted _ [] hdays
  have hnd : ((chartEntries logs selectedExercise).map Prod.fst).Nodup :=
    List.Pairwise.imp (fun h => ne_of_lt h) hpair
  have hlook : ∀ d, (chartEntries logs selectedExercise).lookup d =
      dayMax ((logs.filter fun l => l.exercise == selectedExercise).insertionSort dateLE) d := by
    intro d
    rw [chartEntries, lookup_dailyFold]
    rfl
  refine ⟨hpair, ?_, ?_, rfl⟩
  · intro d
    constructor
    · intro h
      cases hl : (chartEntries logs selectedExercise).lookup d with
      | none => exact absurd (lookup_eq_none_iff.mp hl) (by simp [h])
      | some v =>
        rw [hlook d] at hl
        obtain ⟨⟨r, hrL, hrd, -⟩, -⟩ := dayMax_spec hl
        obtain ⟨h1, h2⟩ := (hmemL r).mp hrL
        exact ⟨r, h1, h2, hrd⟩
    · rintro ⟨r, hr, hex, hday⟩
      by_contra hc
      have hnone : (chartEntries logs selectedExercise).lookup d = none :=
        lookup_eq_none_iff.mpr hc
      rw [hlook d] at hnone
      exact (dayMax_eq_none_iff.mp hnone) r ((hmemL r).mpr ⟨hr, hex⟩) hday
  · intro d v hmem
    have hl := lookup_of_mem_nodup hnd hmem
    rw [hlook d] at hl
    obtain ⟨⟨r, hrL, hrd, hrv⟩, hbound⟩ := dayMax_spec hl
    obtain ⟨h1, h2⟩ := (hmemL r).mp hrL
    refine ⟨⟨r, h1, h2, hrd, hrv⟩, ?_⟩
    intro r' hr' hex hday
    exact hbound r' ((hmemL r').mpr ⟨hr', hex⟩) hday

/-- Witness for C1 on the spec's example: two same-day records (oneRM 100
then 90) and a later day (110) for one exercise; the series keeps the
same-day maximum 100, which both occurs and bounds that day's records. -/
theorem claim_C1_witness :
    ((0, (100 : ℚ)) ∈ chartEntries
        [⟨0, "ベンチプレス", 95, 3, 100⟩, ⟨1000, "ベンチプレス", 90, 3, 90⟩,
          ⟨2 * msPerDay, "ベンチプレス", 100, 5, 110⟩] "ベンチプレス")
      ∧ (∃ r ∈ [(⟨0, "ベンチプレス", 95, 3, 100⟩ : LogRec),
            ⟨1000, "ベンチプレス", 90, 3, 90⟩, ⟨2 * msPerDay, "ベンチプレス", 100, 5, 110⟩],
          r.exercise = "ベンチプレス" ∧ dayNumber r.date = 0 ∧ r.oneRM = 100)
      ∧ ∀ r ∈ [(⟨0, "ベンチプレス", 95, 3, 100⟩ : LogRec),
            ⟨1000, "ベンチプレス", 90, 3, 90⟩, ⟨2 * msPerDay, "ベンチプレス", 100, 5, 110⟩],
          r.exercise = "ベンチプレス" → dayNumber r.date = 0 → r.oneRM ≤ 100 := by
  have hm : (0, (100 : ℚ)) ∈ chartEntries
      [⟨0, "ベンチプレス", 95, 3, 100⟩, ⟨1000, "ベンチプレス", 90, 3, 90⟩,
        ⟨2 * msPerDay, "ベンチプレス", 100, 5, 110⟩] "ベンチプレス" := by decide
  exact ⟨hm, (claim_C1 _ "ベンチプレス").2.2.1 0 100 hm⟩

/-! ## Concrete parsing facts for the import claims -/

theorem parseFloat_natDigits (n : ℕ) : parseFloatQ (natDigits n) = some (n : ℚ) := by
  have hd := natDigits_digits (n := n)
  have hne := natDigits_ne_nil n
  rw [parseFloatQ]
  rw [dropWhile_none fun c hc => digit_not_space (hd c hc)]
  cases h : natDigits n with
  | nil => exact absurd h hne
  | cons c t =>
    have hdc : c.isDigit = true := hd c (by rw [h]; simp)
    rw [stripSign_digit hdc, ← h, takeWhile_all hd, dropWhile_all hd]
    rw [if_neg (by simp [h])]
    simp [digitsToNat_natDigits, show digitsToNat ([] : List Char) = 0 from rfl, dotFrac]

/-- Claim C10: a CSV whose second data row has parseable numbers but an
unparseable date does not produce the `{success, error}` report at all: the
date conversion throws, the surrounding handler catches it (`thrown`), the
row before the failure stays written, and the row after it is never
processed. -/
theorem claim_C10 :
    executeImport
        ("日付,種目,重量(kg),回数,推定1RM(kg)\n2000/01/10,Bench,100,3,110\nxx,Squat,90,3,99\n2000/01/12,Dead,120,2,128").data
      = CsvOutcome.thrown [⟨11169 * msPerDay, "Bench", 100, 3, calculate1RM 100 3⟩]
    ∧ (∀ s e w, executeImport
        ("日付,種目,重量(kg),回数,推定1RM(kg)\n2000/01/10,Bench,100,3,110\nxx,Squat,90,3,99\n2000/01/12,Dead,120,2,128").data
        ≠ CsvOutcome.done s e w)
    ∧ parseFloatQ "90".data = some 90 ∧ parseIntJS "3".data = some 3
    ∧ parseDateJS "xx".data = none := by
  have hw1 : parseFloatQ "100".data = some 100 := by
    rw [show "100".data = natDigits 100 from by decide, parseFloat_natDigits]
    norm_num
  have hw2 : parseFloatQ "90".data = some 90 := by
    rw [show "90".data = natDigits 90 from by decide, parseFloat_natDigits]
    norm_num
  have hr1 : parseIntJS "3".data = some 3 := by
    rw [show "3".data = natDigits 3 from by decide, parseIntJS_natDigits]
    norm_num
  have hd1 : parseDateJS "2000/01/10".data = some (11169 * msPerDay) := by decide
  have hd2 : parseDateJS "xx".data = none := by decide
  have hsplit1 : splitSep ',' (trimChars "2000/01/10,Bench,100,3,110".data) =
      ["2000/01/10".data, "Bench".data, "100".data, "3".data, "110".data] := by decide
  have hsplit2 : splitSep ',' (trimChars "xx,Squat,90,3,99".data) =
      ["xx".data, "Squat".data, "90".data, "3".data, "99".data] := by decide
  have hex1 : String.mk (trimChars "Bench".data) = "Bench" := by decide
  have h1 : rowStep "2000/01/10,Bench,100,3,110".data =
      RowStep.ok ⟨11169 * msPerDay, "Bench", 100, 3, calculate1RM 100 3⟩ := by
    simp only [rowStep, hsplit1, hw1, hr1, hd1, hex1, Int.cast_ofNat]
  have h2 : rowStep "xx,Squat,90,3,99".data = RowStep.abort := by
    simp only [rowStep, hsplit2, hw2, hr1, hd2]
  have hlines : splitSep '\n'
      ("日付,種目,重量(kg),回数,推定1RM(kg)\n2000/01/10,Bench,100,3,110\nxx,Squat,90,3,99\n2000/01/12,Dead,120,2,128").data
      = ["日付,種目,重量(kg),回数,推定1RM(kg)".data, "2000/01/10,Bench,100,3,110".data,
          "xx,Squat,90,3,99".data, "2000/01/12,Dead,120,2,128".data] := by decide
  have hmain : executeImport
      ("日付,種目,重量(kg),回数,推定1RM(kg)\n2000/01/10,Bench,100,3,110\nxx,Squat,90,3,99\n2000/01/12,Dead,120,2,128").data
      = CsvOutcome.thrown [⟨11169 * msPerDay, "Bench", 100, 3, calculate1RM 100 3⟩] := by
    rw [executeImport, hlines]
    simp only [List.drop, importRows, h1, h2, List.nil_append]
  refine ⟨hmain, ?_, hw2, hr1, hd2⟩
  intro s e w hc
  rw [hmain] at hc
  exact CsvOutcome.noConfusion hc

/-! ## Row classification and import counting -/

theorem rowStep_class (line : List Char) :
    (rowStep line = RowStep.skip ∧ rowAccepted line = false ∧ rowRejected line = false)
    ∨ (∃ rec, rowStep line = RowStep.ok rec
        ∧ rec.oneRM = calculate1RM rec.weight (rec.reps : ℚ) ∧ rowAccepted line = true
        ∧ rowRejected line = false ∧ rowDateOk line = true)
    ∨ (rowStep line = RowStep.abort ∧ rowAccepted line = true
        ∧ rowRejected line = false ∧ rowDateOk line = false)
    ∨ (rowStep line = RowStep.bad ∧ rowAccepted line = false ∧ rowRejected line = true) := by
  rcases hc : splitSep ',' (trimChars line) with - | ⟨d, - | ⟨ex, - | ⟨w, - | ⟨r, rest⟩⟩⟩⟩
  · exact Or.inl (by simp [rowStep, rowAccepted, rowRejected, hc])
  · exact Or.inl (by simp [rowStep, rowAccepted, rowRejected, hc])
  · exact Or.inl (by simp [rowStep, rowAccepted, rowRejected, hc])
  · exact Or.inl (by simp [rowStep, rowAccepted, rowRejected, hc])
  · cases hw : parseFloatQ w with
    | none =>
      refine Or.inr (Or.inr (Or.inr ?_))
      simp [rowStep, rowAccepted, rowRejected, hc, hw]
    | some wv =>
      cases hr : parseIntJS r with
      | none =>
        refine Or.inr (Or.inr (Or.inr ?_))
        simp [rowStep, rowAccepted, rowRejected, hc, hw, hr]
      | some rv =>
        cases hd : parseDateJS d with
        | none =>
          refine Or.inr (Or.inr (Or.inl ?_))
          simp [rowStep, rowAccepted, rowRejected, rowDateOk, hc, hw, hr, hd]
        | some t =>
          refine Or.inr (Or.inl
            ⟨⟨t, String.mk (trimChars ex), wv, rv, calculate1RM wv (rv : ℚ)⟩, ?_, rfl, ?_⟩)
          · simp [rowStep, hc, hw, hr, hd]
          · simp [rowAccepted, rowRejected, rowDateOk, hc, hw, hr, hd]

theorem importRows_count :
    ∀ (lines : List (List Char)) (s e : ℕ) (acc : List LogRec),
      (∀ line ∈ lines, rowAccepted line = true → rowDateOk line = true) →
      ∃ w, importRows lines s e acc =
          CsvOutcome.done (s + lines.countP rowAccepted) (e + lines.countP rowRejected)
            (acc ++ w)
        ∧ w.length = lines.countP rowAccepted := by
  intro lines
  induction lines with
  | nil =>
    intro s e acc _
    exact ⟨[], by simp [importRows], by simp⟩
  | cons line rest ih =>
    intro s e acc hdates
    rcases rowStep_class line with ⟨hstep, hacc, hrej⟩ | ⟨rec, hstep, -, hacc, hrej, -⟩
      | ⟨hstep, hacc, -, hdok⟩ | ⟨hstep, hacc, hrej⟩
    · obtain ⟨w, hw, hlen⟩ := ih s e acc fun l hl => hdates l (by simp [hl])
      refine ⟨w, ?_, ?_⟩
      · rw [importRows]
        simp only [hstep]
        rw [hw, List.countP_cons_of_neg _ _ (by simp [hacc]),
          List.countP_cons_of_neg _ _ (by simp [hrej])]
      · rw [hlen, List.countP_cons_of_neg _ _ (by simp [hacc])]
    · obtain ⟨w, hw, hlen⟩ := ih (s + 1) e (acc ++ [rec]) fun l hl => hdates l (by simp [hl])
      refine ⟨rec :: w, ?_, ?_⟩
      · rw [importRows]
        simp only [hstep]
        rw [hw, List.countP_cons_of_pos _ _ (by simp [hacc]),
          List.countP_cons_of_neg _ _ (by simp [hrej]),
          List.append_assoc, List.singleton_append]
        congr 1
        omega
      · rw [List.length_cons, hlen, List.countP_cons_of_pos _ _ (by simp [hacc])]
    · exact absurd (hdates line (by simp) hacc) (by simp [hdok])
    · obtain ⟨w, hw, hlen⟩ := ih s (e + 1) acc fun l hl => hdates l (by simp [hl])
      refine ⟨w, ?_, ?_⟩
      · rw [importRows]
        simp only [hstep]
        rw [hw, List.countP_cons_of_neg _ _ (by simp [hacc]),
          List.countP_cons_of_pos _ _ (by simp [hrej])]
        congr 1
        omega
      · rw [hlen, List.countP_cons_of_neg _ _ (by simp [hacc])]

/-- Claim C4 counterexample: a row whose weight and reps both parse but whose
date is unparseable is, per the claim, to be counted as a success and to
create a record; the code instead aborts the whole run — no `{success, error}`
report is produced at all and no record is created. -/
theorem claim_C4_counterexample :
    rowAccepted "zz,Bench,100,3,110".data = true
    ∧ executeImport "h\nzz,Bench,100,3,110".data = CsvOutcome.thrown []
    ∧ ∀ s e w, executeImport "h\nzz,Bench,100,3,110".data ≠ CsvOutcome.done s e w := by
  have hacc : rowAccepted "zz,Bench,100,3,110".data = true := by decide
  have hd : parseDateJS "zz".data = none := by decide
  have habort : rowStep "zz,Bench,100,3,110".data = RowStep.abort := by
    rcases rowStep_class "zz,Bench,100,3,110".data with ⟨-, h, -⟩ | ⟨rec, -, -, -, -, hdok⟩
      | ⟨h, -, -, -⟩ | ⟨-, h, -⟩
    · exact absurd hacc (by simp [h])
    · exact absurd hdok (by decide)
    · exact h
    · exact absurd hacc (by simp [h])
  have hlines : splitSep '\n' "h\nzz,Bench,100,3,110".data =
      ["h".data, "zz,Bench,100,3,110".data] := by decide
  have hmain : executeImport "h\nzz,Bench,100,3,110".data = CsvOutcome.thrown [] := by
    rw [executeImport, hlines]
    simp only [List.drop, importRows, habort]
  refine ⟨hacc, hmain, ?_⟩
  intro s e w hc
  rw [hmain] at hc
  exact CsvOutcome.noConfusion hc

/-- Claim C4 (amended): for every uploaded CSV text in which every accepted
row (≥ 4 columns, weight and reps both parsing) also carries a convertible
date, the import discards the header line, silently skips every line with
fewer than 4 columns (counted in neither tally), counts exactly the accepted
rows as successes — creating one record each — and counts exactly the
≥ 4-column rows whose numbers do not both parse as errors, creating no
record for them.  (When an accepted row's date does not convert, the run
aborts instead: see the counterexample and claim C10.) -/
theorem claim_C4 (text : List Char)
    (hdates : ∀ line ∈ (splitSep '\n' text).drop 1,
      rowAccepted line = true → rowDateOk line = true) :
    ∃ w, executeImport text =
        CsvOutcome.done (((splitSep '\n' text).drop 1).countP rowAccepted)
          (((splitSep '\n' text).drop 1).countP rowRejected) w
      ∧ w.length = ((splitSep '\n' text).drop 1).countP rowAccepted := by
  obtain ⟨w, hw, hlen⟩ := importRows_count ((splitSep '\n' text).drop 1) 0 0 [] hdates
  refine ⟨w, ?_, hlen⟩
  rw [executeImport, hw]
  simp

/-- Witness for C4 on a text with one accepted row, one malformed-number row
and one short row: the report is `{success: 1, error: 1}` with one record
written and the short row in neither tally. -/
theorem claim_C4_witness :
    (∃ w, executeImport
        "h\n2000/01/10,Bench,100,3,110\n2000/01/11,Squat,abc,5,0\nshort".data =
          CsvOutcome.done
            (((splitSep '\n'
              "h\n2000/01/10,Bench,100,3,110\n2000/01/11,Squat,abc,5,0\nshort".data).drop
                1).countP rowAccepted)
            (((splitSep '\n'
              "h\n2000/01/10,Bench,100,3,110\n2000/01/11,Squat,abc,5,0\nshort".data).drop
                1).countP rowRejected) w
          ∧ w.length = (((splitSep '\n'
              "h\n2000/01/10,Bench,100,3,110\n2000/01/11,Squat,abc,5,0\nshort".data).drop
                1).countP rowAccepted))
    ∧ ((splitSep '\n'
        "h\n2000/01/10,Bench,100,3,110\n2000/01/11,Squat,abc,5,0\nshort".data).drop
          1).countP rowAccepted = 1
    ∧ ((splitSep '\n'
        "h\n2000/01/10,Bench,100,3,110\n2000/01/11,Squat,abc,5,0\nshort".data).drop
          1).countP rowRejected = 1 :=
  ⟨claim_C4 "h\n2000/01/10,Bench,100,3,110\n2000/01/11,Squat,abc,5,0\nshort".data
      (by decide),
    by decide, by decide⟩

/-! ## Claim C5: the oneRM invariant at creation time -/

theorem importRows_oneRM :
    ∀ (lines : List (List Char)) (s e : ℕ) (acc : List LogRec),
      (∀ rec ∈ acc, rec.oneRM = calculate1RM rec.weight (rec.reps : ℚ)) →
      ∀ rec ∈ writtenRecords (importRows lines s e acc),
        rec.oneRM = calculate1RM rec.weight (rec.reps : ℚ) := by
  intro lines
  induction lines with
  | nil =>
    intro s e acc hacc rec hm
    rw [importRows] at hm
    exact hacc rec hm
  | cons line rest ih =>
    intro s e acc hacc rec hm
    rw [importRows] at hm
    rcases rowStep_class line with ⟨hstep, -, -⟩ | ⟨rec', hstep, hone, -, -, -⟩
      | ⟨hstep, -, -, -⟩ | ⟨hstep, -, -⟩ <;> rw [hstep] at hm
    · exact ih s e acc hacc rec hm
    · refine ih (s + 1) e (acc ++ [rec']) ?_ rec hm
      intro r hr
      rcases List.mem_append.mp hr with hr | hr
      · exact hacc r hr
      · rw [List.mem_singleton.mp hr]
        exact hone
    · exact hacc rec hm
    · exact ih s (e + 1) acc hacc rec hm

/-- Claim C5: every record payload produced at creation time — by the save
action or by an accepted CSV import row — stores `oneRM` equal to the
estimator applied to the `weight` and `reps` stored in that same payload. -/
theorem claim_C5 :
    (∀ (weight reps : List Char) (user : Option String) (recordDate : List Char)
        (nowH nowM : ℕ) (selectedExercise : String) (p : LogPayload),
        handleSaveLog weight reps user recordDate nowH nowM selectedExercise = some p →
        p.oneRM = calculate1RMJS p.weight (p.reps.map fun i => (i : ℚ)))
      ∧ ∀ (text : List Char) (rec : LogRec),
          rec ∈ writtenRecords (executeImport text) →
          rec.oneRM = calculate1RM rec.weight (rec.reps : ℚ) := by
  constructor
  · exact fun w r u d nh nm sel p h => claim_C5_save w r u d nh nm sel p h
  · intro text rec hm
    rw [executeImport] at hm
    exact importRows_oneRM _ 0 0 [] (by simp) rec hm

/-- Witness for C5: a concrete save payload and a concrete imported record
both satisfy the invariant. -/
theorem claim_C5_witness :
    (∃ p, handleSaveLog "80".data "5".data (some "u") "2024-01-10".data 9 30 "スクワット"
        = some p ∧ p.oneRM = calculate1RMJS p.weight (p.reps.map fun i => (i : ℚ)))
      ∧ ((⟨11169 * msPerDay, "Bench", 100, 3, calculate1RM 100 3⟩ : LogRec) ∈
          writtenRecords (executeImport
            ("日付,種目,重量(kg),回数,推定1RM(kg)\n2000/01/10,Bench,100,3,110\nxx,Squat,90,3,99\n2000/01/12,Dead,120,2,128").data)
          ∧ (⟨11169 * msPerDay, "Bench", 100, 3, calculate1RM 100 3⟩ : LogRec).oneRM =
              calculate1RM (⟨11169 * msPerDay, "Bench", 100, 3, calculate1RM 100 3⟩ : LogRec).weight
                ((⟨11169 * msPerDay, "Bench", 100, 3, calculate1RM 100 3⟩ : LogRec).reps : ℚ)) := by
  have hmem : (⟨11169 * msPerDay, "Bench", 100, 3, calculate1RM 100 3⟩ : LogRec) ∈
      writtenRecords (executeImport
        ("日付,種目,重量(kg),回数,推定1RM(kg)\n2000/01/10,Bench,100,3,110\nxx,Squat,90,3,99\n2000/01/12,Dead,120,2,128").data) := by
    rw [claim_C10.1]
    simp [writtenRecords]
  have h1 := claim_C5.1 "80".data "5".data (some "u") "2024-01-10".data 9 30 "スクワット" _ rfl
  exact ⟨⟨_, rfl, h1⟩, hmem, claim_C5.2 _ _ hmem⟩

/-! ## The export→import round trip -/

theorem parseIntJS_printIntJS {i : ℤ} (h : 0 ≤ i) : parseIntJS (printIntJS i) = some i := by
  rw [printIntJS, if_neg (not_lt.mpr h), parseIntJS_natDigits, Int.toNat_of_nonneg h]

theorem getLast?_append_cons {xs R : List Char} {c0 c : Char} (h : R.getLast? = some c) :
    (xs ++ c0 :: R).getLast? = some c := by
  rw [List.getLast?_append, show (c0 :: R) = [c0] ++ R from rfl, List.getLast?_append, h]
  rfl

theorem mem_joinSep {sep c : Char} :
    ∀ {ps : List (List Char)}, c ∈ joinSep sep ps → c = sep ∨ ∃ p ∈ ps, c ∈ p := by
  intro ps
  induction ps with
  | nil => intro h; simp [joinSep] at h
  | cons x xs ih =>
    intro h
    cases xs with
    | nil =>
      rw [joinSep] at h
      exact Or.inr ⟨x, by simp, h⟩
    | cons y ys =>
      rw [joinSep_pair] at h
      rcases List.mem_append.mp h with h | h
      · exact Or.inr ⟨x, by simp, h⟩
      · rcases List.mem_cons.mp h with rfl | h
        · exact Or.inl rfl
        · rcases ih h with h | ⟨p, hp, hc⟩
          · exact Or.inl h
          · exact Or.inr ⟨p, by simp [hp], hc⟩

theorem trimChars_exportRow (l : LogRec) : trimChars (exportRow l) = exportRow l := by
  have hshape : exportRow l = formatDate l.date ++ ',' ::
      (l.exercise.data ++ ',' :: (printQ l.weight ++ ',' ::
        (printIntJS l.reps ++ ',' :: printQ l.oneRM))) := rfl
  obtain ⟨c1, hc1, hd1⟩ := formatDate_head_digit l.date
  obtain ⟨c2, hc2, hd2⟩ := printQ_last_digit l.oneRM
  apply trimChars_eq_self
  · intro c hc
    rw [hshape, List.head?_append, hc1] at hc
    obtain rfl := Option.some.inj hc
    exact digit_not_space hd1
  · intro c hc
    rw [hshape] at hc
    rw [getLast?_append_cons (getLast?_append_cons (getLast?_append_cons
      (getLast?_append_cons hc2)))] at hc
    obtain rfl := Option.some.inj hc
    exact digit_not_space hd2

theorem splitSep_exportRow {l : LogRec} (hc : ',' ∉ l.exercise.data) :
    splitSep ',' (exportRow l) =
      [formatDate l.date, l.exercise.data, printQ l.weight, printIntJS l.reps,
        printQ l.oneRM] := by
  apply splitSep_joinSep (by simp)
  intro p hp hmem
  have h5 : p = formatDate l.date ∨ p = l.exercise.data ∨ p = printQ l.weight ∨
      p = printIntJS l.reps ∨ p = printQ l.oneRM := by simpa using hp
  rcases h5 with rfl | rfl | rfl | rfl | rfl
  · rcases formatDate_chars _ hmem with h | h
    · exact digit_ne_comma h rfl
    · exact absurd h (by decide)
  · exact hc hmem
  · rcases printQ_chars _ hmem with h | h | h
    · exact digit_ne_comma h rfl
    · exact absurd h (by decide)
    · exact absurd h (by decide)
  · rcases printIntJS_chars _ hmem with h | h
    · exact digit_ne_comma h rfl
    · exact absurd h (by decide)
  · rcases printQ_chars _ hmem with h | h | h
    · exact digit_ne_comma h rfl
    · exact absurd h (by decide)
    · exact absurd h (by decide)

theorem rowStep_exportRow {l : LogRec} (hw : 0 < l.weight) (hdec : IsDecimal l.weight)
    (hr : 0 ≤ l.reps) (hc : ',' ∉ l.exercise.data) :
    rowStep (exportRow l) = RowStep.ok (reimport l) := by
  rw [rowStep, trimChars_exportRow, splitSep_exportRow hc]
  simp only [parseFloatQ_printQ hw.le hdec, parseIntJS_printIntJS hr, parseDateJS_formatDate,
    reimport]

theorem exportRow_no_newline {l : LogRec} (h : '\n' ∉ l.exercise.data) :
    '\n' ∉ exportRow l := by
  intro hmem
  rcases mem_joinSep hmem with hsep | ⟨p, hp, hcp⟩
  · exact absurd hsep (by decide)
  · have h5 : p = formatDate l.date ∨ p = l.exercise.data ∨ p = printQ l.weight ∨
        p = printIntJS l.reps ∨ p = printQ l.oneRM := by simpa using hp
    rcases h5 with rfl | rfl | rfl | rfl | rfl
    · rcases formatDate_chars _ hcp with hd | hd
      · exact digit_ne_newline hd rfl
      · exact absurd hd (by decide)
    · exact h hcp
    · rcases printQ_chars _ hcp with hd | hd | hd
      · exact digit_ne_newline hd rfl
      · exact absurd hd (by decide)
      · exact absurd hd (by decide)
    · rcases printIntJS_chars _ hcp with hd | hd
      · exact digit_ne_newline hd rfl
      · exact absurd hd (by decide)
    · rcases printQ_chars _ hcp with hd | hd | hd
      · exact digit_ne_newline hd rfl
      · exact absurd hd (by decide)
      · exact absurd hd (by decide)

theorem importRows_all_ok :
    ∀ (ls : List LogRec) (s e : ℕ) (acc : List LogRec),
      (∀ l ∈ ls, rowStep (exportRow l) = RowStep.ok (reimport l)) →
      importRows (ls.map exportRow) s e acc =
        CsvOutcome.done (s + ls.length) e (acc ++ ls.map reimport) := by
  intro ls
  induction ls with
  | nil =>
    intro s e acc _
    simp [importRows]
  | cons l rest ih =>
    intro s e acc hok
    rw [List.map_cons, importRows]
    simp only [hok l (by simp)]
    rw [ih (s + 1) e (acc ++ [reimport l]) fun l' hl' => hok l' (by simp [hl'])]
    rw [List.append_assoc, List.singleton_append, List.map_cons, List.length_cons]
    congr 1
    omega

theorem executeImport_export {logs : List LogRec} (hne : logs ≠ [])
    (hv : ∀ l ∈ logs, 0 < l.weight ∧ IsDecimal l.weight ∧ 0 < l.reps
        ∧ ',' ∉ l.exercise.data ∧ '\n' ∉ l.exercise.data) :
    ∃ csv, handleExportCSV logs = some csv
      ∧ executeImport csv = CsvOutcome.done logs.length 0 (logs.map reimport) := by
  refine ⟨joinSep '\n' (csvHeader :: logs.map exportRow), ?_, ?_⟩
  · rw [handleExportCSV, if_neg (by simpa [List.isEmpty_iff] using hne)]
  · rw [executeImport]
    have hsplit : splitSep '\n' (joinSep '\n' (csvHeader :: logs.map exportRow)) =
        csvHeader :: logs.map exportRow := by
      apply splitSep_joinSep (by simp)
      intro p hp hmem
      rcases List.mem_cons.mp hp with rfl | hp
      · exact absurd hmem (by decide)
      · obtain ⟨l, hl, rfl⟩ := List.mem_map.mp hp
        exact exportRow_no_newline (hv l hl).2.2.2.2 hmem
    rw [hsplit, List.drop_one, List.tail_cons]
    rw [importRows_all_ok logs 0 0 [] fun l hl => by
      obtain ⟨h1, h2, h3, h4, -⟩ := hv l hl
      exact rowStep_exportRow h1 h2 h3.le h4]
    simp

/-- Claim C3 counterexample: a record whose exercise name contains no comma
but carries a leading space (`" Bench"`) — valid by the claim's wording —
round-trips with `{success: 1, error: 0}` yet reconstructs a different
exercise name (`"Bench"`), because import trims the field while export does
not. -/
theorem claim_C3_counterexample :
    (',' ∉ " Bench".data)
      ∧ (∃ csv,
          handleExportCSV [⟨0, " Bench", 100, 3, calculate1RM 100 3⟩] = some csv
            ∧ executeImport csv =
                CsvOutcome.done 1 0 [⟨0, "Bench", 100, 3, calculate1RM 100 3⟩])
      ∧ ("Bench" : String) ≠ " Bench" := by
  refine ⟨by decide, ?_, by decide⟩
  have hv0 : ∀ l ∈ [(⟨0, " Bench", 100, 3, calculate1RM 100 3⟩ : LogRec)],
      0 < l.weight ∧ IsDecimal l.weight ∧ 0 < l.reps
        ∧ ',' ∉ l.exercise.data ∧ '\n' ∉ l.exercise.data := by
    intro l hl
    rw [List.mem_singleton] at hl
    subst hl
    exact ⟨by norm_num, by norm_num [IsDecimal], by decide, by decide, by decide⟩
  obtain ⟨csv, h1, h2⟩ :=
    executeImport_export (show [(⟨0, " Bench", 100, 3, calculate1RM 100 3⟩ : LogRec)] ≠ []
      by simp) hv0
  refine ⟨csv, h1, ?_⟩
  rw [h2]
  have htr : String.mk (trimChars " Bench".data) = "Bench" := by decide
  simp [reimport, htr, dayNumber]

/-- Claim C3 (amended): for every nonempty collection of N valid records —
positive decimal weight, positive reps, the `oneRM` invariant, and exercise
names free of commas, newlines and leading/trailing whitespace — exporting
and re-importing the produced text reports `{success: N, error: 0}` and
reconstructs N records whose weight, reps and exercise equal the originals,
with `oneRM` recomputed from weight and reps and equal to the original.
(Surrounding whitespace in a name breaks exercise equality: see the
counterexample.) -/
theorem claim_C3 (logs : List LogRec) (hne : logs ≠ [])
    (hv : ∀ l ∈ logs, ValidRecord l) :
    ∃ csv, handleExportCSV logs = some csv
      ∧ executeImport csv = CsvOutcome.done logs.length 0 (logs.map reimport)
      ∧ List.Forall₂
          (fun w l => w.weight = l.weight ∧ w.reps = l.reps ∧ w.exercise = l.exercise
            ∧ w.oneRM = calculate1RM l.weight (l.reps : ℚ) ∧ w.oneRM = l.oneRM)
          (logs.map reimport) logs := by
  have hv0 : ∀ l ∈ logs, 0 < l.weight ∧ IsDecimal l.weight ∧ 0 < l.reps
      ∧ ',' ∉ l.exercise.data ∧ '\n' ∉ l.exercise.data := by
    intro l hl
    obtain ⟨a, b, c, d, e, -, -⟩ := hv l hl
    exact ⟨a, b, c, d, e⟩
  obtain ⟨csv, h1, h2⟩ := executeImport_export hne hv0
  refine ⟨csv, h1, h2, ?_⟩
  rw [List.forall₂_map_left_iff, List.forall₂_same]
  intro l hl
  obtain ⟨-, -, -, -, -, htrim, hinv⟩ := hv l hl
  refine ⟨rfl, rfl, ?_, rfl, ?_⟩
  · show String.mk (trimChars l.exercise.data) = l.exercise
    rw [htrim]
  · exact hinv.symm

/-- Witness for C3 on two valid records. -/
theorem claim_C3_witness :
    ∃ csv, handleExportCSV [⟨0, "Bench", 100, 3, calculate1RM 100 3⟩,
        ⟨2 * msPerDay, "Squat", 60, 5, calculate1RM 60 5⟩] = some csv
      ∧ executeImport csv = CsvOutcome.done
          ([(⟨0, "Bench", 100, 3, calculate1RM 100 3⟩ : LogRec),
            ⟨2 * msPerDay, "Squat", 60, 5, calculate1RM 60 5⟩].length) 0
          ([(⟨0, "Bench", 100, 3, calculate1RM 100 3⟩ : LogRec),
            ⟨2 * msPerDay, "Squat", 60, 5, calculate1RM 60 5⟩].map reimport)
      ∧ List.Forall₂
          (fun (w l : LogRec) => w.weight = l.weight ∧ w.reps = l.reps ∧ w.exercise = l.exercise
            ∧ w.oneRM = calculate1RM l.weight (l.reps : ℚ) ∧ w.oneRM = l.oneRM)
          ([(⟨0, "Bench", 100, 3, calculate1RM 100 3⟩ : LogRec),
            ⟨2 * msPerDay, "Squat", 60, 5, calculate1RM 60 5⟩].map reimport)
          [⟨0, "Bench", 100, 3, calculate1RM 100 3⟩,
            ⟨2 * msPerDay, "Squat", 60, 5, calculate1RM 60 5⟩] := by
  apply claim_C3
  · simp
  · intro l hl
    rcases List.mem_cons.mp hl with rfl | hl
    · exact ⟨by norm_num, by norm_num [IsDecimal], by decide, by decide, by decide, by decide,
        by norm_num⟩
    · rw [List.mem_singleton] at hl
      subst hl
      exact ⟨by norm_num, by norm_num [IsDecimal], by decide, by decide, by decide, by decide,
        by norm_num⟩
